import Mathlib

/-!
# Verification of the resource scheduling / leveling / smoothing engine

A shallow embedding of `backend/routers/resource_allocation.py`:
the dependency-graph forward/backward passes, the resource leveling
algorithm, the resource smoothing algorithm, the scenario optimizer and
the scenario-analysis endpoint logic.

Modelling conventions:
* Python floats are modelled as exact rationals (`ℚ`).
* Absolute datetimes are modelled as rational hour counts: the project
  start instant is a rational number `startDate`, and
  `start_date + timedelta(hours=h)` becomes `startDate + h`.  The
  expression `(end - start).total_seconds() / 3600` is then `end - start`.
* Python dictionaries are association lists with insertion-order
  semantics: assignment to a present key updates it in place, assignment
  to an absent key appends.
* Exceptions (here: only unreachable `KeyError`s, the `ValueError` of
  `max()` on an empty sequence, and the failing attribute assignment in
  `analyze_scenarios`) are modelled with `Option`: `none` is an aborted
  run.
* The recursive graph traversals terminate because their `visited` set
  grows on every non-trivial call; the embedding uses explicit fuel
  `tasks.length + 1`, and `calc_total` below proves this fuel is never
  exhausted, so `none` never arises from the traversals themselves.

Rational arithmetic is expressed through the kernel-reducible wrappers
`qadd`, `qsub`, `qmul`, `qdiv`, `qmax`, `qmin` (the library's `Rat.add`
etc. are `@[irreducible]`, which would block `decide` on the concrete
counterexamples).  Each wrapper is proved equal to the corresponding
library operation, so abstract proofs can rewrite to ordinary `+ - * /`.
-/

/-- Addition on `ℚ`, kernel-reducible. -/
def qadd (a b : ℚ) : ℚ := mkRat (a.num * b.den + b.num * a.den) (a.den * b.den)

/-- Subtraction on `ℚ`, kernel-reducible. -/
def qsub (a b : ℚ) : ℚ := mkRat (a.num * b.den - b.num * a.den) (a.den * b.den)

/-- Multiplication on `ℚ`, kernel-reducible. -/
def qmul (a b : ℚ) : ℚ := mkRat (a.num * b.num) (a.den * b.den)

/-- Division on `ℚ`, kernel-reducible (`a * b⁻¹`). -/
def qdiv (a b : ℚ) : ℚ := qmul a (Rat.divInt b.den b.num)

/-- `max` on `ℚ`, kernel-reducible.  Python's `max(a, b)` returns `b`
exactly when `a < b`; for a linear order the value agrees with `max`. -/
def qmax (a b : ℚ) : ℚ := if a ≤ b then b else a

/-- `min` on `ℚ`, kernel-reducible. -/
def qmin (a b : ℚ) : ℚ := if a ≤ b then a else b

theorem qadd_eq (a b : ℚ) : qadd a b = a + b := (Rat.add_def' a b).symm

theorem qsub_eq (a b : ℚ) : qsub a b = a - b := (Rat.sub_def' a b).symm

theorem qmul_eq (a b : ℚ) : qmul a b = a * b := by
  rw [Rat.mul_def, qmul, mkRat]
  simp [Nat.mul_ne_zero a.den_nz b.den_nz]

theorem qdiv_eq (a b : ℚ) : qdiv a b = a / b := by
  rw [Rat.div_def, qdiv, qmul_eq, Rat.inv_def]

theorem qmax_eq (a b : ℚ) : qmax a b = max a b := (max_def a b).symm

theorem qmin_eq (a b : ℚ) : qmin a b = min a b := (min_def a b).symm

/-- Python `int(x)` on a float: truncation toward zero. -/
def pyInt (q : ℚ) : ℤ := if 0 ≤ q then ⌊q⌋ else ⌈q⌉

/-- Python `range(n)` (with a possibly negative bound, giving `[]`),
as a list of rationals `0, 1, …, n-1`. -/
def pyRange (n : ℤ) : List ℚ := (List.range n.toNat).map (fun k : ℕ => (k : ℚ))

/-- Python dict lookup `d[k]` / `d.get(k)`: the value at the key, if
present (keys of a Python dict are unique, so the first match is it). -/
def pyGet {κ α : Type} [DecidableEq κ] (d : List (κ × α)) (k : κ) : Option α :=
  match d with
  | [] => none
  | e :: es => if e.1 = k then some e.2 else pyGet es k

/-- Python `d.get(k, v₀)`. -/
def pyGetD {κ α : Type} [DecidableEq κ] (d : List (κ × α)) (k : κ) (v₀ : α) : α :=
  (pyGet d k).getD v₀

/-- Python dict assignment `d[k] = v`: updates a present key in place
(keeping its position) and appends an absent key. -/
def pySet {κ α : Type} [DecidableEq κ] (d : List (κ × α)) (k : κ) (v : α) :
    List (κ × α) :=
  match d with
  | [] => [(k, v)]
  | e :: es => if e.1 = k then (k, v) :: es else e :: pySet es k v

/-- Python `k in d` for a dict. -/
def pyMem {κ α : Type} [DecidableEq κ] (d : List (κ × α)) (k : κ) : Bool :=
  (pyGet d k).isSome

/-- Python `max(xs)` for a nonempty list (`0` as a junk value on `[]`,
where Python raises `ValueError`; every use below guards nonemptiness). -/
def pyMax (xs : List ℚ) : ℚ :=
  match xs with
  | [] => 0
  | x :: rest => rest.foldl qmax x

/-- Python `max(d.values())`. -/
def pyMaxValues {κ : Type} (d : List (κ × ℚ)) : ℚ := pyMax (d.map (·.2))

/-- `TaskInput` (pydantic model): a task of the scheduling problem.
`required_resources` is the list of `{'resource_id': …, 'quantity': …}`
dicts, `priority` one of `'low' | 'medium' | 'high' | 'critical'`. -/
structure TaskInput where
  id : String
  name : String
  duration : ℚ
  required_resources : List (String × ℚ)
  dependencies : List String
  priority : String
deriving Repr, DecidableEq

/-- `ResourceInput` (pydantic model).  The open `availability` dict is
not consulted by any algorithm under verification and is omitted. -/
structure ResourceInput where
  id : String
  name : String
  rtype : String
  capacity : ℚ
  cost_per_hour : ℚ
deriving Repr, DecidableEq

/-- `task_dict = {task.id: task for task in tasks}` — on duplicate ids a
Python dict comprehension keeps the last occurrence. -/
def taskDict (tasks : List TaskInput) (tid : String) : Option TaskInput :=
  tasks.reverse.find? (fun t => t.id == tid)

/-- `resource_dict = {res.id: res for res in resources}`. -/
def resourceDict (resources : List ResourceInput) (rid : String) :
    Option ResourceInput :=
  resources.reverse.find? (fun r => r.id == rid)

/-- State of the forward pass: the shared mutable `visited` set and the
`earliest_start` / `earliest_finish` dicts. -/
structure FwdSt where
  visited : List String
  es : List (String × ℚ)
  ef : List (String × ℚ)
deriving Repr

/-- Fold of `calculate_earliest_times` over a dependency list: the loop
`for dep_id in task.dependencies: if dep_id in task_dict: …` that
accumulates `max_predecessor_finish`, threading the recursion `rec`. -/
def calcEDeps (td : String → Option TaskInput)
    (rec : String → FwdSt → Option (ℚ × FwdSt)) :
    List String → ℚ → FwdSt → Option (ℚ × FwdSt)
  | [], m, s => some (m, s)
  | d :: ds, m, s =>
    if (td d).isSome then
      match rec d s with
      | none => none
      | some (f, s') => calcEDeps td rec ds (qmax m f) s'
    else calcEDeps td rec ds m s

/-- `calculate_earliest_times(task_id, visited)`: recursion-guarded
forward pass.  A task already in `visited` yields
`earliest_finish.get(task_id, 0)`; otherwise the maximum of the
dependencies' earliest finishes is computed and
`earliest_start/earliest_finish` are written.  `fuel` bounds the
recursion depth; `calc_total` shows `tasks.length + 1` always suffices. -/
def calculate_earliest_times (td : String → Option TaskInput) :
    ℕ → String → FwdSt → Option (ℚ × FwdSt)
  | 0, _, _ => none
  | fuel + 1, tid, s =>
    if tid ∈ s.visited then some (pyGetD s.ef tid 0, s)
    else
      match td tid with
      | none => none
      | some task =>
        match calcEDeps td (calculate_earliest_times td fuel)
            task.dependencies 0 ⟨tid :: s.visited, s.es, s.ef⟩ with
        | none => none
        | some (m, s') =>
          some (qadd m task.duration,
            ⟨s'.visited, pySet s'.es tid m,
              pySet s'.ef tid (qadd m task.duration)⟩)

/-- The driver loop `for task in tasks: calculate_earliest_times(task.id,
set())`: a fresh `visited` set per top-level call, shared result dicts. -/
def runForward (td : String → Option TaskInput) (fuel : ℕ) :
    List TaskInput → List (String × ℚ) × List (String × ℚ) →
    Option (List (String × ℚ) × List (String × ℚ))
  | [], st => some st
  | t :: ts, st =>
    match calculate_earliest_times td fuel t.id ⟨[], st.1, st.2⟩ with
    | none => none
    | some (_, s) => runForward td fuel ts (s.es, s.ef)

/-- The complete forward pass of `resource_leveling_algorithm`
(lines 72–95): returns the `earliest_start` and `earliest_finish` dicts. -/
def forwardPass (tasks : List TaskInput) :
    Option (List (String × ℚ) × List (String × ℚ)) :=
  runForward (taskDict tasks) (tasks.length + 1) tasks ([], [])

/-- State of the backward pass: `visited`, `latest_start`, `latest_finish`. -/
structure BwdSt where
  visited : List String
  ls : List (String × ℚ)
  lf : List (String × ℚ)
deriving Repr

/-- Fold of `calculate_latest_times` over the full task list: the loop
`for other_task in tasks: if task_id in other_task.dependencies: …`
accumulating `min_successor_start`. -/
def calcLDeps (tid : String)
    (rec : String → BwdSt → Option (ℚ × BwdSt)) :
    List TaskInput → ℚ → BwdSt → Option (ℚ × BwdSt)
  | [], m, s => some (m, s)
  | ot :: ots, m, s =>
    if tid ∈ ot.dependencies then
      match rec ot.id s with
      | none => none
      | some (v, s') => calcLDeps tid rec ots (qmin m v) s'
    else calcLDeps tid rec ots m s

/-- `calculate_latest_times(task_id, visited)`: recursion-guarded
backward pass seeded with `project_end`.  A task already in `visited`
yields `latest_start.get(task_id, project_end)`. -/
def calculate_latest_times (td : String → Option TaskInput)
    (tasks : List TaskInput) (projectEnd : ℚ) :
    ℕ → String → BwdSt → Option (ℚ × BwdSt)
  | 0, _, _ => none
  | fuel + 1, tid, s =>
    if tid ∈ s.visited then some (pyGetD s.ls tid projectEnd, s)
    else
      match td tid with
      | none => none
      | some task =>
        match calcLDeps tid (calculate_latest_times td tasks projectEnd fuel)
            tasks projectEnd ⟨tid :: s.visited, s.ls, s.lf⟩ with
        | none => none
        | some (m, s') =>
          some (qsub m task.duration,
            ⟨s'.visited, pySet s'.ls tid (qsub m task.duration),
              pySet s'.lf tid m⟩)

/-- The driver loop `for task in tasks: calculate_latest_times(task.id,
set())`. -/
def runBackward (td : String → Option TaskInput) (tasks : List TaskInput)
    (projectEnd : ℚ) (fuel : ℕ) :
    List TaskInput → List (String × ℚ) × List (String × ℚ) →
    Option (List (String × ℚ) × List (String × ℚ))
  | [], st => some st
  | t :: ts, st =>
    match calculate_latest_times td tasks projectEnd fuel t.id
        ⟨[], st.1, st.2⟩ with
    | none => none
    | some (_, s) => runBackward td tasks projectEnd fuel ts (s.ls, s.lf)

/-- The complete backward pass (lines 97–122), seeded with
`project_end = max(earliest_finish.values()) if earliest_finish else 0`:
returns the `latest_start` and `latest_finish` dicts. -/
def backwardPass (tasks : List TaskInput) (projectEnd : ℚ) :
    Option (List (String × ℚ) × List (String × ℚ)) :=
  runBackward (taskDict tasks) tasks projectEnd (tasks.length + 1) tasks ([], [])

/-- Python `abs` on a float, kernel-reducible. -/
def qabs (q : ℚ) : ℚ := if q < 0 then qsub 0 q else q

theorem qabs_eq (q : ℚ) : qabs q = |q| := by
  rw [qabs, qsub_eq, abs]
  rcases lt_or_le q 0 with h | h
  · simp [h, zero_sub, (neg_nonneg.mpr h.le).trans_lt, left_eq_sup,
      le_neg_self_iff, h.le]
  · simp [not_lt.mpr h, sup_eq_left, neg_le_self_iff, h]

/-- Critical-path identification (lines 124–128): tasks whose
`abs(earliest_start - latest_start) < 0.001`. -/
def criticalTasks (tasks : List TaskInput) (es ls : List (String × ℚ)) :
    List String :=
  (tasks.filter (fun t =>
    qabs (qsub (pyGetD es t.id 0) (pyGetD ls t.id 0)) < mkRat 1 1000)).map (·.id)

/-- Per-resource, per-hour usage ledger: `resource_usage` in the code,
a dict from resource id to a dict from time slot to allocated quantity. -/
abbrev Usage := List (String × List (ℚ × ℚ))

/-- A resource value used where the code indexes `resource_dict[res_id]`
with a key that is always present (the requirement list was filtered on
membership); the junk fields are never read on reachable paths. -/
def junkResource : ResourceInput := ⟨"", "", "", 0, 0⟩

/-- `resource_usage.get(res_id, {}).get(time_slot, 0)`. -/
def usageGet (usage : Usage) (rid : String) (slot : ℚ) : ℚ :=
  pyGetD (pyGetD usage rid []) slot 0

/-- `priority_map = {'critical': 4, 'high': 3, 'medium': 2, 'low': 1}`
with `.get(task.priority, 2)`. -/
def priorityMap (p : String) : ℕ :=
  if p = "critical" then 4
  else if p = "high" then 3
  else if p = "medium" then 2
  else if p = "low" then 1
  else 2

/-- `task_priority(task)` (lines 135–138): the Python sort key
`(is_critical, priority value, earliest_start)`. -/
def task_priority (criticals : List String) (es : List (String × ℚ))
    (t : TaskInput) : Bool × ℕ × ℚ :=
  (decide (t.id ∈ criticals), priorityMap t.priority, pyGetD es t.id 0)

/-- Lexicographic `≤` on Python sort keys (`False < True` for booleans,
as in Python where `bool` is an `int`). -/
def tupleLe (a b : Bool × ℕ × ℚ) : Bool :=
  (!a.1 && b.1) ||
    (a.1 == b.1 &&
      (decide (a.2.1 < b.2.1) ||
        (a.2.1 == b.2.1 && decide (a.2.2 ≤ b.2.2))))

/-- The ordering used by `sorted(tasks, key=task_priority)`. -/
def taskLe (criticals : List String) (es : List (String × ℚ))
    (t u : TaskInput) : Prop :=
  tupleLe (task_priority criticals es t) (task_priority criticals es u) = true

instance (criticals : List String) (es : List (String × ℚ)) :
    DecidableRel (taskLe criticals es) :=
  fun _ _ => inferInstanceAs (Decidable (_ = true))

/-- `sorted(tasks, key=task_priority)`: Python's sort is stable and its
key comparison is the lexicographic order above; stable insertion sort
(`List.insertionSort`, which inserts before strictly greater elements
only) produces the same list. -/
def sortedTasks (criticals : List String) (es : List (String × ℚ))
    (tasks : List TaskInput) : List TaskInput :=
  List.insertionSort (taskLe criticals es) tasks

/-- Lines 144–147: the `task_resources` dict, keeping only requirements
whose `resource_id` occurs in `resource_dict`. -/
def taskResources (rd : String → Option ResourceInput)
    (reqs : List (String × ℚ)) : List (String × ℚ) :=
  reqs.foldl (fun d req => if (rd req.1).isSome then pySet d req.1 req.2 else d) []

/-- Lines 167–175, inner loop: walk a candidate's hour slots for one
resource, accumulating `peak_usage` and breaking on the first slot where
`current + quantity > capacity`.  Returns `(conflict, peak)`. -/
def evalHours (usage : Usage) (rid : String) (cap q candStart : ℚ) :
    List ℚ → ℚ → Bool × ℚ
  | [], peak => (false, peak)
  | h :: hs, peak =>
    let newU := qadd (usageGet usage rid (qadd candStart h)) q
    if cap < newU then (true, peak)
    else evalHours usage rid cap q candStart hs (qmax peak newU)

/-- Lines 165–178: walk all required resources of a candidate start,
breaking out on the first conflict. -/
def evalResources (rd : String → Option ResourceInput) (usage : Usage)
    (dur candStart : ℚ) : List (String × ℚ) → ℚ → Bool × ℚ
  | [], peak => (false, peak)
  | rq :: rest, peak =>
    let res := (rd rq.1).getD junkResource
    match evalHours usage rq.1 res.capacity rq.2 candStart
        (pyRange (pyInt dur)) peak with
    | (true, peak') => (true, peak')
    | (false, peak') => evalResources rd usage dur candStart rest peak'

/-- Lines 149–182: enumerate candidate starts
`min_start + range(int(max_start - min_start) + 1)` and keep the first
non-conflicting candidate with strictly smallest peak usage
(`min_peak_usage` starts at `float('inf')`, modelled as `none`);
`best_start` defaults to `min_start`. -/
def findBestStart (rd : String → Option ResourceInput) (usage : Usage)
    (taskRes : List (String × ℚ)) (dur minStart maxStart : ℚ) : ℚ :=
  let cands := (pyRange (pyInt (qsub maxStart minStart) + 1)).map
    (fun o => qadd minStart o)
  (cands.foldl (fun (acc : ℚ × Option ℚ) cand =>
      match evalResources rd usage dur cand taskRes 0 with
      | (true, _) => acc
      | (false, peak) =>
        match acc.2 with
        | none => (cand, some peak)
        | some mp => if peak < mp then (cand, some peak) else acc)
    (minStart, none)).1

/-- Lines 194–199: commit the winning start by reserving
`range(int(task.duration))` hourly slots for every required resource
(an absent resource key is first initialised to an empty dict). -/
def reserveTask (usage : Usage) (taskRes : List (String × ℚ))
    (bestStart dur : ℚ) : Usage :=
  taskRes.foldl (fun u rq =>
    let u1 := if pyMem u rq.1 then u else pySet u rq.1 []
    (pyRange (pyInt dur)).foldl (fun u2 h =>
      let slot := qadd bestStart h
      pySet u2 rq.1
        (pySet (pyGetD u2 rq.1 []) slot
          (qadd (pyGetD (pyGetD u2 rq.1 []) slot 0) rq.2))) u1) usage

/-- One `schedule[task.id]` record (lines 185–191). -/
structure ScheduleEntry where
  start_time : ℚ
  end_time : ℚ
  duration : ℚ
  is_critical : Bool
  float : ℚ
deriving Repr, DecidableEq

/-- Entry value used where the code indexes `schedule[task.id]` with a
key that is always present (every task is scheduled). -/
def junkEntry : ScheduleEntry := ⟨0, 0, 0, false, 0⟩

/-- Lines 142–199, one iteration of the scheduling loop: pick the best
start within `[earliest_start, latest_start]`, record the schedule
entry, and reserve the resource slots. -/
def scheduleStep (rd : String → Option ResourceInput)
    (criticals : List String) (es ls : List (String × ℚ)) (startDate : ℚ)
    (st : List (String × ScheduleEntry) × Usage) (task : TaskInput) :
    List (String × ScheduleEntry) × Usage :=
  let taskRes := taskResources rd task.required_resources
  let minStart := pyGetD es task.id 0
  let maxStart := pyGetD ls task.id 0
  let best := findBestStart rd st.2 taskRes task.duration minStart maxStart
  let entry : ScheduleEntry :=
    ⟨qadd startDate best, qadd startDate (qadd best task.duration),
      task.duration, decide (task.id ∈ criticals), qsub maxStart minStart⟩
  (pySet st.1 task.id entry, reserveTask st.2 taskRes best task.duration)

/-- One element of the returned `leveled_tasks` list (lines 205–214):
the task's fields spread together with the projection of its schedule
entry (the code reuses the names `earliest_start` / `latest_finish` for
the scheduled absolute start / end times). -/
structure LeveledTask where
  task : TaskInput
  earliest_start : ℚ
  latest_finish : ℚ
  is_critical : Bool
  float : ℚ
deriving Repr, DecidableEq

/-- The dict returned by `resource_leveling_algorithm` (lines 204–220).
`schedule` is the internal per-task dict the entries of `leveled_tasks`
are projected from; it is exposed here as well for direct reference. -/
structure LevelingResult where
  schedule : List (String × ScheduleEntry)
  leveled_tasks : List LeveledTask
  critical_path : List String
  resource_usage : Usage
  project_duration_hours : ℚ
  project_start_date : ℚ
  project_end_date : ℚ
deriving Repr, DecidableEq

/-- Lines 130–199: the scheduling fold over the sorted tasks, starting
from an empty schedule dict and an empty usage ledger. -/
def levelingSchedule (tasks : List TaskInput) (resources : List ResourceInput)
    (startDate : ℚ) (es ls : List (String × ℚ)) :
    List (String × ScheduleEntry) × Usage :=
  (sortedTasks (criticalTasks tasks es ls) es tasks).foldl
    (scheduleStep (resourceDict resources) (criticalTasks tasks es ls) es ls startDate)
    ([], [])

/-- Lines 200–220: assemble the returned dict from the computed pieces;
`none` is line 201's `ValueError` when no task is scheduled. -/
def levelingFinish (tasks : List TaskInput) (startDate : ℚ)
    (criticals : List String) (sched : List (String × ScheduleEntry))
    (usage : Usage) : Option LevelingResult :=
  match (tasks.filter (fun t => pyMem sched t.id)).map
      (fun t => (pyGetD sched t.id junkEntry).end_time) with
  | [] => none
  | e :: rest =>
    let projectEndTime := rest.foldl qmax e
    some
      { schedule := sched
        leveled_tasks := tasks.map (fun t =>
          let en := pyGetD sched t.id junkEntry
          ⟨t, en.start_time, en.end_time, en.is_critical, en.float⟩)
        critical_path := criticals
        resource_usage := usage
        project_duration_hours := qsub projectEndTime startDate
        project_start_date := startDate
        project_end_date := projectEndTime }

/-- `resource_leveling_algorithm(tasks, resources, start_date)`
(lines 63–220), assembled from the passes, the scheduling fold and the
output construction. -/
def resource_leveling_algorithm (tasks : List TaskInput)
    (resources : List ResourceInput) (startDate : ℚ) :
    Option LevelingResult :=
  match forwardPass tasks with
  | none => none
  | some (es, ef) =>
    match backwardPass tasks (pyMaxValues ef) with
    | none => none
    | some (ls, _lf) =>
      let p := levelingSchedule tasks resources startDate es ls
      levelingFinish tasks startDate (criticalTasks tasks es ls) p.1 p.2

/-- One entry of `resource_peaks` / `smoothed_peaks` (lines 241–245,
304–308): peak usage, capacity, and their ratio. -/
structure PeakInfo where
  peak_usage : ℚ
  capacity : ℚ
  utilization : ℚ
deriving Repr, DecidableEq

/-- Lines 236–245 (and identically 300–308): for each resource with a
nonempty usage dict, record peak usage, capacity and utilization
(`peak / capacity`). -/
def resourcePeaks (rd : String → Option ResourceInput) (usage : Usage) :
    List (String × PeakInfo) :=
  usage.foldl (fun acc ru =>
    if ru.2.isEmpty then acc
    else
      let cap := ((rd ru.1).getD junkResource).capacity
      let mx := pyMaxValues ru.2
      pySet acc ru.1 ⟨mx, cap, qdiv mx cap⟩) []

/-- One `smoothed_schedule[task.id]` record (lines 285–289). -/
structure SmoothEntry where
  start_time : ℚ
  end_time : ℚ
  duration : ℚ
deriving Repr, DecidableEq

/-- Lines 266–278: total contention of one candidate start — usage above
the 70 % target utilization, summed over required resources and the
task's `range(int(duration))` hour window.  (The Python literal `0.7` is
modelled as the exact rational `7/10`.) -/
def contentionOf (rd : String → Option ResourceInput) (usage : Usage)
    (taskRes : List (String × ℚ)) (dur cand : ℚ) : ℚ :=
  taskRes.foldl (fun tot rq =>
    let res := (rd rq.1).getD junkResource
    (pyRange (pyInt dur)).foldl (fun tot2 h =>
      let newU := qadd (usageGet usage rq.1 (qadd cand h)) rq.2
      let target := qmul res.capacity (mkRat 7 10)
      if target < newU then qadd tot2 (qsub newU target) else tot2) tot) 0

/-- Lines 252–297, one iteration of the smoothing loop.  `best_start` is
initialised to an ISO datetime *string* (line 259) and `min_contention`
to infinity; the accumulator `none` models that state.  If the candidate
loop `range(0, max_project_hours)` is empty the string survives and
line 286's `timedelta(hours=best_start)` raises `TypeError`, hence
`none` overall; otherwise the first candidate always replaces the
default (any contention is `< inf`). -/
def smoothStep (rd : String → Option ResourceInput) (maxHours : ℤ)
    (startDate : ℚ) (st : List (String × SmoothEntry) × Usage)
    (task : TaskInput) : Option (List (String × SmoothEntry) × Usage) :=
  let taskRes := taskResources rd task.required_resources
  let best? := (pyRange maxHours).foldl (fun acc cand =>
      let c := contentionOf rd st.2 taskRes task.duration cand
      match acc with
      | none => some (cand, c)
      | some mc => if c < mc.2 then some (cand, c) else acc) none
  match best? with
  | none => none
  | some (best, _) =>
    some (pySet st.1 task.id
        ⟨qadd startDate best, qadd startDate (qadd best task.duration),
          task.duration⟩,
      reserveTask st.2 taskRes best task.duration)

/-- The smoothing loop `for task in tasks` (lines 252–297), in the
original task-list order. -/
def runSmooth (rd : String → Option ResourceInput) (maxHours : ℤ)
    (startDate : ℚ) :
    List TaskInput → List (String × SmoothEntry) × Usage →
    Option (List (String × SmoothEntry) × Usage)
  | [], st => some st
  | t :: ts, st =>
    match smoothStep rd maxHours startDate st t with
    | none => none
    | some st' => runSmooth rd maxHours startDate ts st'

/-- One element of the returned `smoothed_tasks` list (lines 314–321). -/
structure SmoothedTask where
  task : TaskInput
  earliest_start : ℚ
  latest_finish : ℚ
deriving Repr, DecidableEq

/-- The dict returned by `resource_smoothing_algorithm` (lines 313–328). -/
structure SmoothingResult where
  smoothed_schedule : List (String × SmoothEntry)
  smoothed_tasks : List SmoothedTask
  original_peaks : List (String × PeakInfo)
  smoothed_peaks : List (String × PeakInfo)
  resource_usage : Usage
  project_duration_hours : ℚ
  project_start_date : ℚ
  project_end_date : ℚ
deriving Repr, DecidableEq

/-- Entry value used where the code indexes `smoothed_schedule[task.id]`
with a key that is always present. -/
def junkSmoothEntry : SmoothEntry := ⟨0, 0, 0⟩

/-- Lines 299–328: assemble the smoothing result; `none` is line 310's
`ValueError` when no task is scheduled. -/
def smoothingFinish (tasks : List TaskInput) (resources : List ResourceInput)
    (startDate : ℚ) (originalPeaks : List (String × PeakInfo))
    (sched : List (String × SmoothEntry)) (usage : Usage) :
    Option SmoothingResult :=
  match (tasks.filter (fun t => pyMem sched t.id)).map
      (fun t => (pyGetD sched t.id junkSmoothEntry).end_time) with
  | [] => none
  | e :: rest =>
    let projectEndTime := rest.foldl qmax e
    some
      { smoothed_schedule := sched
        smoothed_tasks := tasks.map (fun t =>
          let en := pyGetD sched t.id junkSmoothEntry
          ⟨t, en.start_time, en.end_time⟩)
        original_peaks := originalPeaks
        smoothed_peaks := resourcePeaks (resourceDict resources) usage
        resource_usage := usage
        project_duration_hours := qsub projectEndTime startDate
        project_start_date := startDate
        project_end_date := projectEndTime }

/-- `resource_smoothing_algorithm(tasks, resources, start_date)`
(lines 222–328): level first, compute per-resource peaks, re-schedule
every task over `range(0, int(project_duration_hours))` minimizing
contention, then compare peaks. -/
def resource_smoothing_algorithm (tasks : List TaskInput)
    (resources : List ResourceInput) (startDate : ℚ) :
    Option SmoothingResult :=
  match resource_leveling_algorithm tasks resources startDate with
  | none => none
  | some leveled =>
    match runSmooth (resourceDict resources)
        (pyInt leveled.project_duration_hours) startDate tasks ([], []) with
    | none => none
    | some (sched, usage) =>
      smoothingFinish tasks resources startDate
        (resourcePeaks (resourceDict resources) leveled.resource_usage)
        sched usage

/-- `OptimizationScenario` (pydantic model).  The `constraints` and
`weights` dicts are never read by `optimize_resource_allocation` and are
omitted. -/
structure OptimizationScenario where
  name : String
  objective : String
deriving Repr, DecidableEq

/-- `OptimizationInput` (pydantic model); the ISO `project_start_date`
string is modelled as the parsed instant. -/
structure OptimizationInput where
  resources : List ResourceInput
  tasks : List TaskInput
  scenario : OptimizationScenario
  project_start_date : ℚ
deriving Repr, DecidableEq

/-- One element of `allocations` (lines 419–426). -/
structure Allocation where
  task_id : String
  resource_id : String
  alloc_start : ℚ
  alloc_end : ℚ
  hours_allocated : ℚ
  cost : ℚ
deriving Repr, DecidableEq

/-- One over-allocation window (lines 406–410). -/
structure ConflictPeriod where
  period_start : ℚ
  period_end : ℚ
  excess : ℚ
deriving Repr, DecidableEq

/-- One element of `resource_conflicts` (lines 404–411). -/
structure ResourceConflict where
  resource_id : String
  over_allocation_periods : List ConflictPeriod
deriving Repr, DecidableEq

/-- The dict returned by `optimize_resource_allocation` (lines 428–437). -/
structure OptimizationResult where
  scenario_name : String
  total_cost : ℚ
  total_duration : ℚ
  resource_utilization : List (String × ℚ)
  allocations : List Allocation
  critical_path : List String
  resource_conflicts : List ResourceConflict
  recommendations : List String
deriving Repr, DecidableEq

/-- Lines 338–352: baseline metrics — total estimated cost, total
duration, and the `resource_requirements` quantity dict.  Note that
`next((r for r in resources if r.id == …), None)` takes the *first*
matching resource. -/
def baselineMetrics (tasks : List TaskInput)
    (resources : List ResourceInput) : ℚ × ℚ × List (String × ℚ) :=
  tasks.foldl (fun acc task =>
    let inner := task.required_resources.foldl (fun (cr : ℚ × List (String × ℚ)) req =>
      match resources.find? (fun r => r.id == req.1) with
      | none => cr
      | some res =>
        (qadd cr.1 (qmul (qmul task.duration res.cost_per_hour) req.2),
          pySet cr.2 req.1 (qadd (pyGetD cr.2 req.1 0) req.2)))
      (acc.1, acc.2.2)
    (inner.1, qadd acc.2.1 task.duration, inner.2)) (0, 0, [])

/-- The objective-specific advisory strings (lines 358–388). -/
def recommendationsFor (objective : String) : List String :=
  if objective = "minimize_cost" then
    ["Consider using lower-cost resources where skills permit",
     "Minimize overtime and peak resource usage",
     "Schedule non-critical tasks during off-peak periods"]
  else if objective = "minimize_duration" then
    ["Maximize parallel task execution",
     "Consider additional resources for critical path",
     "Reduce task dependencies where possible"]
  else if objective = "balance_resources" then
    ["Balance resource utilization across project timeline",
     "Avoid resource peaks and troughs",
     "Consider flexible task scheduling within float"]
  else
    ["Maximize resource utilization while avoiding overallocation",
     "Consider cross-training for resource flexibility",
     "Schedule buffer time for unexpected delays"]

/-- `optimize_resource_allocation(input_data)` (lines 330–437).  The
`balance_resources` branch invokes the smoothing algorithm (discarding
its value), so its failure aborts the run. -/
def optimize_resource_allocation (input : OptimizationInput) :
    Option OptimizationResult := do
  let tasks := input.tasks
  let resources := input.resources
  let startDate := input.project_start_date
  let (totalCost, totalDuration, reqs) := baselineMetrics tasks resources
  let leveled ← resource_leveling_algorithm tasks resources startDate
  if input.scenario.objective = "balance_resources" then
    let _ ← resource_smoothing_algorithm tasks resources startDate
  let utilization := resources.foldl (fun acc res =>
    let totalCap := qmul res.capacity ((tasks.length : ℚ))
    let used := pyGetD reqs res.id 0
    let util := if 0 < totalCap then qmin (qdiv used totalCap) 1 else 0
    pySet acc res.id util) []
  let conflicts := leveled.resource_usage.foldl (fun acc ru =>
    match resources.find? (fun r => r.id == ru.1) with
    | none => acc
    | some res =>
      if ru.2.isEmpty then acc
      else
        let maxU := pyMaxValues ru.2
        if res.capacity < maxU then
          acc ++ [⟨ru.1, [⟨startDate, qadd startDate 24, qsub maxU res.capacity⟩]⟩]
        else acc) []
  let allocations := tasks.foldl (fun acc task =>
    task.required_resources.foldl (fun acc2 req =>
      match resources.find? (fun r => r.id == req.1) with
      | none => acc2
      | some res =>
        acc2 ++ [⟨task.id, req.1, startDate, qadd startDate task.duration,
          qmul task.duration req.2,
          qmul (qmul task.duration res.cost_per_hour) req.2⟩]) acc) []
  some
    { scenario_name := input.scenario.name
      total_cost := totalCost
      total_duration := totalDuration
      resource_utilization := utilization
      allocations := allocations
      critical_path := leveled.critical_path
      resource_conflicts := conflicts
      recommendations := recommendationsFor input.scenario.objective }

/-- Lines 501–508: apply one variation dict to the (shared) task and
resource lists.  `param == "duration"` executes
`task.duration_hours *= factor`, but `TaskInput` declares no field
`duration_hours`, so pydantic raises a `ValueError` on the first task —
modelled as `none` whenever the task list is nonempty. -/
def applyVariations (tasks : List TaskInput) (resources : List ResourceInput) :
    List (String × ℚ) → Option (List TaskInput × List ResourceInput)
  | [] => some (tasks, resources)
  | (param, factor) :: rest =>
    if param = "duration" then
      match tasks with
      | [] => applyVariations tasks resources rest
      | _ :: _ => none
    else if param = "cost" then
      applyVariations tasks
        (resources.map (fun r => { r with cost_per_hour := qmul r.cost_per_hour factor }))
        rest
    else applyVariations tasks resources rest

/-- The variation loop of `analyze_scenarios` (lines 497–511).
`modified_input = input_data.base_scenario.copy()` is a *shallow* copy:
the `tasks` / `resources` lists and their elements are shared with the
base scenario across all iterations, so each factor is applied on top of
the previously applied ones.  The threaded `(tasks, resources)` state
models that sharing. -/
def runScenarios (base : OptimizationInput) :
    List (String × List (String × ℚ)) →
    List (String × OptimizationResult) × List TaskInput × List ResourceInput →
    Option (List (String × OptimizationResult))
  | [], st => some st.1
  | (sname, vs) :: rest, (results, ts, rs) =>
    match applyVariations ts rs vs with
    | none => none
    | some (ts', rs') =>
      match optimize_resource_allocation
          { base with tasks := ts', resources := rs' } with
      | none => none
      | some r => runScenarios base rest (pySet results sname r, ts', rs')

/-- `analyze_scenarios` (lines 473–519, the computational part): run the
base scenario, then every named variation on the shared task/resource
records, returning the results keyed by scenario name. -/
def analyze_scenarios (base : OptimizationInput)
    (variations : List (String × List (String × ℚ))) :
    Option (List (String × OptimizationResult)) := do
  let baseResults ← optimize_resource_allocation base
  runScenarios base variations ([("base", baseResults)], base.tasks, base.resources)

/-! ## Concrete inputs used by counterexamples and witnesses -/

/-- A single resource of capacity 1 (one unit per hour). -/
def exR1 : ResourceInput := ⟨"R", "res", "human", 1, 10⟩

/-- 1-hour task `D` (low priority) using resource `R`. -/
def taskD : TaskInput := ⟨"D", "d", 1, [("R", 1)], [], "low"⟩

/-- 1-hour task `A` (medium priority) using resource `R`. -/
def taskA : TaskInput := ⟨"A", "a", 1, [("R", 1)], [], "medium"⟩

/-- 1-hour task `B` depending on `A`, no resource needs. -/
def taskB : TaskInput := ⟨"B", "b", 1, [], ["A"], "medium"⟩

/-- 4-hour independent task `C` (critical priority): the critical path. -/
def taskC : TaskInput := ⟨"C", "c", 4, [], [], "critical"⟩

/-- Acyclic example: `D`, `A` compete for `R`; `B` depends on `A`;
`C` alone is critical (duration 4 = project length). -/
def exTasks1 : List TaskInput := [taskD, taskA, taskB, taskC]

/-- Cyclic example: `A` depends on `B`. -/
def cycA : TaskInput := ⟨"A", "a", 2, [], ["B"], "medium"⟩

/-- Cyclic example: `B` depends on `A`. -/
def cycB : TaskInput := ⟨"B", "b", 3, [], ["A"], "medium"⟩

/-- A resource of capacity 10. -/
def exR10 : ResourceInput := ⟨"R", "res", "human", 10, 1⟩

/-- Smoothing example: 1-hour task needing 3 units of `R`. -/
def smA : TaskInput := ⟨"A", "a", 1, [("R", 3)], [], "medium"⟩

/-- Smoothing example: second 1-hour task needing 3 units of `R`. -/
def smB : TaskInput := ⟨"B", "b", 1, [("R", 3)], [], "medium"⟩

/-- Smoothing example: 2-hour critical task, no resources. -/
def smC : TaskInput := ⟨"C", "c", 2, [], [], "critical"⟩

/-- A task whose requirement names a resource id `"X"` that matches no
supplied resource. -/
def unkT : TaskInput := ⟨"T", "t", 2, [("X", 1)], [], "medium"⟩

/-- Base resource for the scenario-analysis examples. -/
def baseRes : ResourceInput := ⟨"R", "res", "human", 5, 10⟩

/-- Base task for the scenario-analysis examples. -/
def baseTask : TaskInput := ⟨"T", "t", 2, [("R", 1)], [], "medium"⟩

/-- Base scenario input for `analyze_scenarios` examples. -/
def baseInput : OptimizationInput :=
  ⟨[baseRes], [baseTask], ⟨"s", "minimize_cost"⟩, 0⟩

/-! ## Library lemmas about the Python-dict and `max` primitives -/

theorem pyGet_pySet_self {κ α : Type} [DecidableEq κ]
    (d : List (κ × α)) (k : κ) (v : α) : pyGet (pySet d k v) k = some v := by
  induction d with
  | nil => simp [pySet, pyGet]
  | cons e es ih =>
    by_cases h : e.1 = k
    · simp [pySet, h, pyGet]
    · simp [pySet, h, pyGet, ih]

theorem pyGet_pySet_ne {κ α : Type} [DecidableEq κ]
    (d : List (κ × α)) (k k' : κ) (v : α) (h : k' ≠ k) :
    pyGet (pySet d k v) k' = pyGet d k' := by
  have hkk : ¬ (k = k') := fun hh => h hh.symm
  induction d with
  | nil => simp [pySet, pyGet, hkk]
  | cons e es ih =>
    by_cases he : e.1 = k
    · simp [pyGet, pySet, he, hkk]
    · simp only [pySet, he, if_false, pyGet]
      by_cases he' : e.1 = k'
      · simp [he']
      · simp [he', ih]

theorem pyGet_pySet_isSome_iff {κ α : Type} [DecidableEq κ]
    (d : List (κ × α)) (k k' : κ) (v : α) :
    (pyGet (pySet d k v) k').isSome ↔ k' = k ∨ (pyGet d k').isSome := by
  by_cases h : k' = k
  · subst h
    simp [pyGet_pySet_self]
  · rw [pyGet_pySet_ne d k k' v h]
    simp [h]

theorem pyGet_mem {κ α : Type} [DecidableEq κ]
    (d : List (κ × α)) (k : κ) (v : α) (h : pyGet d k = some v) : (k, v) ∈ d := by
  induction d with
  | nil => simp [pyGet] at h
  | cons e es ih =>
    obtain ⟨a, b⟩ := e
    by_cases he : a = k
    · subst he
      simp only [pyGet, if_true] at h
      rcases Option.some.inj h with rfl
      exact List.mem_cons_self _ _
    · simp only [pyGet, he, if_false] at h
      exact List.mem_cons_of_mem _ (ih h)

theorem foldl_qmax_le_acc (xs : List ℚ) (a : ℚ) : a ≤ xs.foldl qmax a := by
  induction xs generalizing a with
  | nil => exact le_refl a
  | cons x xs ih =>
    refine le_trans ?_ (ih (qmax a x))
    rw [qmax_eq]
    exact le_max_left a x

theorem foldl_qmax_le_of_mem (xs : List ℚ) (a x : ℚ) (h : x ∈ xs) :
    x ≤ xs.foldl qmax a := by
  induction xs generalizing a with
  | nil => cases h
  | cons y ys ih =>
    rw [List.foldl_cons]
    rcases List.mem_cons.mp h with rfl | h'
    · refine le_trans ?_ (foldl_qmax_le_acc ys (qmax a x))
      rw [qmax_eq]
      exact le_max_right a x
    · exact ih (qmax a y) h'

theorem foldl_qmax_le_bound (xs : List ℚ) (a b : ℚ) (ha : a ≤ b)
    (hall : ∀ x ∈ xs, x ≤ b) : xs.foldl qmax a ≤ b := by
  induction xs generalizing a with
  | nil => exact ha
  | cons x xs ih =>
    refine ih (qmax a x) ?_ (fun y hy => hall y (List.mem_cons_of_mem _ hy))
    rw [qmax_eq]
    exact max_le ha (hall x (List.mem_cons_self x xs))

theorem foldl_qmax_mem (xs : List ℚ) (a : ℚ) :
    xs.foldl qmax a = a ∨ xs.foldl qmax a ∈ xs := by
  induction xs generalizing a with
  | nil => exact Or.inl rfl
  | cons x xs ih =>
    rw [List.foldl_cons]
    rcases ih (qmax a x) with h | h
    · rw [h, qmax_eq]
      rcases max_choice a x with h' | h'
      · exact Or.inl h'
      · exact Or.inr (List.mem_cons.mpr (Or.inl h'))
    · exact Or.inr (List.mem_cons_of_mem _ h)

theorem le_pyMax_of_mem (xs : List ℚ) (x : ℚ) (h : x ∈ xs) : x ≤ pyMax xs := by
  match xs with
  | [] => cases h
  | y :: ys =>
    rcases List.mem_cons.mp h with rfl | h'
    · exact foldl_qmax_le_acc ys x
    · exact foldl_qmax_le_of_mem ys y x h'

theorem pyMax_mem (xs : List ℚ) (h : xs ≠ []) : pyMax xs ∈ xs := by
  match xs with
  | [] => exact absurd rfl h
  | y :: ys =>
    show ys.foldl qmax y ∈ y :: ys
    rcases foldl_qmax_mem ys y with h' | h'
    · exact List.mem_cons.mpr (Or.inl h')
    · exact List.mem_cons_of_mem _ h'

theorem pyMax_le_bound (xs : List ℚ) (b : ℚ) (h : xs ≠ [])
    (hall : ∀ x ∈ xs, x ≤ b) : pyMax xs ≤ b := by
  match xs with
  | [] => exact absurd rfl h
  | y :: ys =>
    exact foldl_qmax_le_bound ys y b (hall y (List.mem_cons_self y ys))
      (fun x hx => hall x (List.mem_cons_of_mem _ hx))

/-! ## Termination of the graph traversals (fuel sufficiency) -/

/-- The ids of all tasks, in list order. -/
def taskIds (tasks : List TaskInput) : List String := tasks.map TaskInput.id

/-- The number of task ids not yet in the visited set: the measure that
shrinks on every non-trivial recursive call of the traversals. -/
def unvisCount (tasks : List TaskInput) (vis : List String) : ℕ :=
  ((taskIds tasks).filter (fun i => decide (i ∉ vis))).length

theorem taskDict_isSome_iff (tasks : List TaskInput) (tid : String) :
    (taskDict tasks tid).isSome = true ↔ tid ∈ taskIds tasks := by
  unfold taskDict taskIds
  rw [List.find?_isSome]
  constructor
  · rintro ⟨t, ht, hbeq⟩
    exact List.mem_map.mpr ⟨t, List.mem_reverse.mp ht, by simpa using hbeq⟩
  · rintro h
    obtain ⟨t, ht, hid⟩ := List.mem_map.mp h
    exact ⟨t, List.mem_reverse.mpr ht, by simpa using hid⟩

theorem filter_length_mono {α : Type} (l : List α) (p q : α → Bool)
    (h : ∀ x, p x = true → q x = true) :
    (l.filter p).length ≤ (l.filter q).length := by
  induction l with
  | nil => exact le_refl 0
  | cons x xs ih =>
    by_cases hp : p x = true
    · rw [List.filter_cons_of_pos hp, List.filter_cons_of_pos (h x hp)]
      exact Nat.succ_le_succ ih
    · rw [List.filter_cons_of_neg (by simpa using hp)]
      by_cases hq : q x = true
      · rw [List.filter_cons_of_pos hq]
        exact le_trans ih (Nat.le_succ _)
      · rw [List.filter_cons_of_neg (by simpa using hq)]
        exact ih

theorem unvisCount_mono (tasks : List TaskInput) {vis vis' : List String}
    (h : vis ⊆ vis') : unvisCount tasks vis' ≤ unvisCount tasks vis := by
  refine filter_length_mono _ _ _ (fun x hx => ?_)
  simp only [decide_eq_true_eq] at hx ⊢
  exact fun hc => hx (h hc)

theorem filter_unvis_strict (tid : String) (vis : List String)
    (hnv : tid ∉ vis) :
    ∀ (l : List String), tid ∈ l →
      (l.filter (fun i => decide (i ∉ tid :: vis))).length <
        (l.filter (fun i => decide (i ∉ vis))).length := by
  intro l
  induction l with
  | nil => intro h; cases h
  | cons x xs ih =>
    intro hmem
    by_cases hx : x = tid
    · subst hx
      rw [List.filter_cons_of_neg (by simp), List.filter_cons_of_pos (by simpa using hnv)]
      refine Nat.lt_succ_of_le (filter_length_mono _ _ _ ?_)
      intro y hy
      simp only [decide_eq_true_eq] at hy ⊢
      exact fun hc => hy (List.mem_cons_of_mem _ hc)
    · have hmem' : tid ∈ xs := by
        rcases List.mem_cons.mp hmem with h | h
        · exact absurd h.symm hx
        · exact h
      by_cases hv : x ∈ vis
      · rw [List.filter_cons_of_neg (by simp [hv]),
          List.filter_cons_of_neg (by simp [hv])]
        exact ih hmem'
      · rw [List.filter_cons_of_pos (by simp [hv, hx]),
          List.filter_cons_of_pos (by simpa using hv)]
        exact Nat.succ_lt_succ (ih hmem')

theorem unvisCount_strict (tasks : List TaskInput) (tid : String)
    (vis : List String) (hmem : tid ∈ taskIds tasks) (hnv : tid ∉ vis) :
    unvisCount tasks (tid :: vis) < unvisCount tasks vis :=
  filter_unvis_strict tid vis hnv (taskIds tasks) hmem

theorem calcEDeps_total (tasks : List TaskInput) (f : ℕ)
    (IH : ∀ tid s, (taskDict tasks tid).isSome = true →
      unvisCount tasks s.visited < f →
      ∃ r s', calculate_earliest_times (taskDict tasks) f tid s = some (r, s') ∧
        s.visited ⊆ s'.visited) :
    ∀ ds m s, unvisCount tasks s.visited < f →
      ∃ r s', calcEDeps (taskDict tasks) (calculate_earliest_times (taskDict tasks) f)
        ds m s = some (r, s') ∧ s.visited ⊆ s'.visited := by
  intro ds
  induction ds with
  | nil => exact fun m s _ => ⟨m, s, rfl, List.Subset.refl _⟩
  | cons d ds ih =>
    intro m s h
    by_cases hd : (taskDict tasks d).isSome = true
    · obtain ⟨r₁, s₁, h1, hsub1⟩ := IH d s hd h
      have h₁c : unvisCount tasks s₁.visited < f :=
        lt_of_le_of_lt (unvisCount_mono tasks hsub1) h
      obtain ⟨r₂, s₂, h2, hsub2⟩ := ih (qmax m r₁) s₁ h₁c
      exact ⟨r₂, s₂, by simp [calcEDeps, hd, h1, h2], hsub1.trans hsub2⟩
    · obtain ⟨r₂, s₂, h2, hsub⟩ := ih m s h
      exact ⟨r₂, s₂, by simp [calcEDeps, hd, h2], hsub⟩

theorem calc_total (tasks : List TaskInput) :
    ∀ f tid s, (taskDict tasks tid).isSome = true →
      unvisCount tasks s.visited < f →
      ∃ r s', calculate_earliest_times (taskDict tasks) f tid s = some (r, s') ∧
        s.visited ⊆ s'.visited := by
  intro f
  induction f with
  | zero => exact fun tid s _ h => absurd h (Nat.not_lt_zero _)
  | succ f ihf =>
    intro tid s htid h
    by_cases hv : tid ∈ s.visited
    · exact ⟨pyGetD s.ef tid 0, s, by simp [calculate_earliest_times, hv],
        List.Subset.refl _⟩
    · obtain ⟨task, htask⟩ := Option.isSome_iff_exists.mp htid
      have hmem : tid ∈ taskIds tasks := (taskDict_isSome_iff tasks tid).mp htid
      have hcount : unvisCount tasks (tid :: s.visited) < f := by
        have h1 := unvisCount_strict tasks tid s.visited hmem hv
        omega
      obtain ⟨m, s', hdeps, hsub⟩ := calcEDeps_total tasks f ihf task.dependencies 0
        ⟨tid :: s.visited, s.es, s.ef⟩ hcount
      refine ⟨qadd m task.duration,
        ⟨s'.visited, pySet s'.es tid m, pySet s'.ef tid (qadd m task.duration)⟩,
        by simp [calculate_earliest_times, hv, htask, hdeps], ?_⟩
      exact (List.subset_cons_self tid s.visited).trans hsub

theorem runForward_total (tasks : List TaskInput) :
    ∀ ts st, (∀ t ∈ ts, t ∈ tasks) →
      ∃ st', runForward (taskDict tasks) (tasks.length + 1) ts st = some st' := by
  intro ts
  induction ts with
  | nil => exact fun st _ => ⟨st, rfl⟩
  | cons t ts ih =>
    intro st hmem
    have htid : (taskDict tasks t.id).isSome = true := by
      rw [taskDict_isSome_iff]
      exact List.mem_map_of_mem TaskInput.id (hmem t (List.mem_cons_self _ _))
    have hc : unvisCount tasks [] < tasks.length + 1 := by
      have hle : unvisCount tasks [] ≤ tasks.length := by
        unfold unvisCount
        refine le_trans (List.length_filter_le _ _) ?_
        rw [taskIds, List.length_map]
      omega
    obtain ⟨r, s', heq, -⟩ := calc_total tasks (tasks.length + 1) t.id
      ⟨[], st.1, st.2⟩ htid hc
    obtain ⟨st', h'⟩ := ih (s'.es, s'.ef)
      (fun u hu => hmem u (List.mem_cons_of_mem _ hu))
    exact ⟨st', by simp [runForward, heq, h']⟩

theorem forwardPass_total (tasks : List TaskInput) :
    ∃ p, forwardPass tasks = some p :=
  runForward_total tasks tasks ([], []) (fun _ h => h)

theorem calcLDeps_total (tasks : List TaskInput) (pe : ℚ) (f : ℕ) (tid : String)
    (IH : ∀ tid' s, (taskDict tasks tid').isSome = true →
      unvisCount tasks s.visited < f →
      ∃ r s', calculate_latest_times (taskDict tasks) tasks pe f tid' s = some (r, s') ∧
        s.visited ⊆ s'.visited) :
    ∀ ots m s, (∀ ot ∈ ots, ot ∈ tasks) → unvisCount tasks s.visited < f →
      ∃ r s', calcLDeps tid (calculate_latest_times (taskDict tasks) tasks pe f)
        ots m s = some (r, s') ∧ s.visited ⊆ s'.visited := by
  intro ots
  induction ots with
  | nil => exact fun m s _ _ => ⟨m, s, rfl, List.Subset.refl _⟩
  | cons ot ots ih =>
    intro m s hmem h
    by_cases hdep : tid ∈ ot.dependencies
    · have hot : (taskDict tasks ot.id).isSome = true := by
        rw [taskDict_isSome_iff]
        exact List.mem_map_of_mem TaskInput.id (hmem ot (List.mem_cons_self _ _))
      obtain ⟨r₁, s₁, h1, hsub1⟩ := IH ot.id s hot h
      have h₁c : unvisCount tasks s₁.visited < f :=
        lt_of_le_of_lt (unvisCount_mono tasks hsub1) h
      obtain ⟨r₂, s₂, h2, hsub2⟩ := ih (qmin m r₁) s₁
        (fun u hu => hmem u (List.mem_cons_of_mem _ hu)) h₁c
      exact ⟨r₂, s₂, by simp [calcLDeps, hdep, h1, h2], hsub1.trans hsub2⟩
    · obtain ⟨r₂, s₂, h2, hsub⟩ := ih m s
        (fun u hu => hmem u (List.mem_cons_of_mem _ hu)) h
      exact ⟨r₂, s₂, by simp [calcLDeps, hdep, h2], hsub⟩

theorem calcL_total (tasks : List TaskInput) (pe : ℚ) :
    ∀ f tid s, (taskDict tasks tid).isSome = true →
      unvisCount tasks s.visited < f →
      ∃ r s', calculate_latest_times (taskDict tasks) tasks pe f tid s = some (r, s') ∧
        s.visited ⊆ s'.visited := by
  intro f
  induction f with
  | zero => exact fun tid s _ h => absurd h (Nat.not_lt_zero _)
  | succ f ihf =>
    intro tid s htid h
    by_cases hv : tid ∈ s.visited
    · exact ⟨pyGetD s.ls tid pe, s, by simp [calculate_latest_times, hv],
        List.Subset.refl _⟩
    · obtain ⟨task, htask⟩ := Option.isSome_iff_exists.mp htid
      have hmem : tid ∈ taskIds tasks := (taskDict_isSome_iff tasks tid).mp htid
      have hcount : unvisCount tasks (tid :: s.visited) < f := by
        have h1 := unvisCount_strict tasks tid s.visited hmem hv
        omega
      obtain ⟨m, s', hdeps, hsub⟩ := calcLDeps_total tasks pe f tid ihf tasks pe
        ⟨tid :: s.visited, s.ls, s.lf⟩ (fun _ hu => hu) hcount
      refine ⟨qsub m task.duration,
        ⟨s'.visited, pySet s'.ls tid (qsub m task.duration), pySet s'.lf tid m⟩,
        by simp [calculate_latest_times, hv, htask, hdeps], ?_⟩
      exact (List.subset_cons_self tid s.visited).trans hsub

theorem runBackward_total (tasks : List TaskInput) (pe : ℚ) :
    ∀ ts st, (∀ t ∈ ts, t ∈ tasks) →
      ∃ st', runBackward (taskDict tasks) tasks pe (tasks.length + 1) ts st = some st' := by
  intro ts
  induction ts with
  | nil => exact fun st _ => ⟨st, rfl⟩
  | cons t ts ih =>
    intro st hmem
    have htid : (taskDict tasks t.id).isSome = true := by
      rw [taskDict_isSome_iff]
      exact List.mem_map_of_mem TaskInput.id (hmem t (List.mem_cons_self _ _))
    have hc : unvisCount tasks [] < tasks.length + 1 := by
      have hle : unvisCount tasks [] ≤ tasks.length := by
        unfold unvisCount
        refine le_trans (List.length_filter_le _ _) ?_
        rw [taskIds, List.length_map]
      omega
    obtain ⟨r, s', heq, -⟩ := calcL_total tasks pe (tasks.length + 1) t.id
      ⟨[], st.1, st.2⟩ htid hc
    obtain ⟨st', h'⟩ := ih (s'.ls, s'.lf)
      (fun u hu => hmem u (List.mem_cons_of_mem _ hu))
    exact ⟨st', by simp [runBackward, heq, h']⟩

theorem backwardPass_total (tasks : List TaskInput) (pe : ℚ) :
    ∃ p, backwardPass tasks pe = some p :=
  runBackward_total tasks pe tasks ([], []) (fun _ h => h)

/-- Every id that is a scheduled task's id (or was already a key) is a
key of the schedule dict after the scheduling fold. -/
theorem schedule_fold_mem (rd : String → Option ResourceInput)
    (criticals : List String) (es ls : List (String × ℚ)) (startDate : ℚ) :
    ∀ (l : List TaskInput) (st : List (String × ScheduleEntry) × Usage)
      (tid : String),
      ((pyGet st.1 tid).isSome ∨ ∃ t ∈ l, t.id = tid) →
      (pyGet (l.foldl (scheduleStep rd criticals es ls startDate) st).1 tid).isSome := by
  intro l
  induction l with
  | nil =>
    intro st tid h
    rcases h with h | ⟨t, ht, -⟩
    · exact h
    · cases ht
  | cons u l ih =>
    intro st tid h
    rw [List.foldl_cons]
    refine ih _ tid ?_
    rcases h with h | ⟨t, ht, hid⟩
    · left
      show (pyGet (pySet st.1 u.id _) tid).isSome
      rw [pyGet_pySet_isSome_iff]
      exact Or.inr h
    · rcases List.mem_cons.mp ht with rfl | ht'
      · left
        show (pyGet (pySet st.1 t.id _) tid).isSome
        rw [pyGet_pySet_isSome_iff]
        exact Or.inl hid.symm
      · exact Or.inr ⟨t, ht', hid⟩

/-- C2 (amended): for every task set — cyclic, dangling or otherwise —
the leveling run raises no `InvalidGraph` (no such error exists in the
code): the recursion-guarded traversals terminate within fuel
`tasks.length + 1` and, whenever at least one task is present, a full
schedule is produced.  Cycles are broken by reading `0` for an
in-progress dependency's finish, and dangling dependency ids are
silently skipped. -/
theorem c2_traversal_terminates_without_invalid_graph
    (tasks : List TaskInput) (resources : List ResourceInput) (startDate : ℚ)
    (h : tasks ≠ []) :
    (resource_leveling_algorithm tasks resources startDate).isSome = true := by
  obtain ⟨⟨es, ef⟩, hf⟩ := forwardPass_total tasks
  obtain ⟨⟨ls, lf⟩, hb⟩ := backwardPass_total tasks (pyMaxValues ef)
  unfold resource_leveling_algorithm
  simp only [hf, hb]
  obtain ⟨t₀, ts, rfl⟩ := List.exists_cons_of_ne_nil h
  have ht₀ : t₀ ∈ t₀ :: ts := List.mem_cons_self _ _
  have hsmem : (pyGet (levelingSchedule (t₀ :: ts) resources startDate es ls).1
      t₀.id).isSome := by
    unfold levelingSchedule
    refine schedule_fold_mem _ _ _ _ _ _ _ _ (Or.inr ⟨t₀, ?_, rfl⟩)
    exact (List.perm_insertionSort _ _).mem_iff.mpr ht₀
  have hfilter : t₀ ∈ (t₀ :: ts).filter
      (fun t => pyMem (levelingSchedule (t₀ :: ts) resources startDate es ls).1 t.id) :=
    List.mem_filter.mpr ⟨ht₀, hsmem⟩
  unfold levelingFinish
  cases hE : ((t₀ :: ts).filter
      (fun t => pyMem (levelingSchedule (t₀ :: ts) resources startDate es ls).1 t.id)).map
      (fun t => (pyGetD (levelingSchedule (t₀ :: ts) resources startDate es ls).1
        t.id junkEntry).end_time) with
  | nil =>
    rw [List.map_eq_nil_iff] at hE
    rw [hE] at hfilter
    cases hfilter
  | cons e rest =>
    simp [hE]

/-- C2 (counterexample to the claim as stated): on the two-task cycle
`A ↔ B` the run does *not* fail before scheduling — no `InvalidGraph`
(or any error) is raised; a complete schedule is returned, with `A`
classified as critical and a project end of 8 hours. -/
theorem c2_cyclic_input_is_scheduled :
    ((resource_leveling_algorithm [cycA, cycB] [] 0).map
      (fun r => (r.critical_path, r.project_end_date,
        (pyGetD r.schedule "B" junkEntry).start_time))) = some (["A"], 8, 5) :=
  rfl

/-- Witness for `c2_traversal_terminates_without_invalid_graph` at the
cyclic input `[cycA, cycB]`. -/
theorem c2_traversal_terminates_witness :
    [cycA, cycB] ≠ [] ∧
      (resource_leveling_algorithm [cycA, cycB] [] 0).isSome = true :=
  ⟨List.cons_ne_nil _ _,
    c2_traversal_terminates_without_invalid_graph [cycA, cycB] [] 0
      (List.cons_ne_nil _ _)⟩

/-- C1 (evaluation at the failing input): in `exTasks1` task `B` depends
on `A`; on candidate starts 0–2 the shared capacity-1 resource pushes
`A` from hour 0 to hour 1 (ending at 2), while `B` — whose window was
computed from the *static* earliest times only — is still started at
hour 1, i.e. strictly before its dependency finishes. -/
theorem c1_dependency_violated_at_failing_input :
    ((resource_leveling_algorithm exTasks1 [exR1] 0).map (fun r =>
      ((pyGetD r.schedule "B" junkEntry).start_time,
        (pyGetD r.schedule "A" junkEntry).end_time))) = some (1, 2) ∧
    "A" ∈ taskB.dependencies ∧ taskB ∈ exTasks1 ∧ ((1 : ℚ) < 2) :=
  ⟨rfl, by decide, by decide, by decide⟩

/-! ## The task ordering used by the leveling engine (claim C4) -/

theorem tupleLe_refl (a : Bool × ℕ × ℚ) : tupleLe a a = true := by
  obtain ⟨a1, a2, a3⟩ := a
  simp [tupleLe]

theorem tupleLe_total (a b : Bool × ℕ × ℚ) :
    tupleLe a b = true ∨ tupleLe b a = true := by
  obtain ⟨a1, a2, a3⟩ := a
  obtain ⟨b1, b2, b3⟩ := b
  simp only [tupleLe, Bool.or_eq_true, Bool.and_eq_true, Bool.not_eq_true',
    beq_iff_eq, decide_eq_true_eq]
  cases a1 <;> cases b1 <;> simp <;>
    rcases Nat.lt_trichotomy a2 b2 with h | rfl | h <;>
      rcases le_total a3 b3 with h3 | h3 <;> tauto

theorem tupleLe_trans (a b c : Bool × ℕ × ℚ) (hab : tupleLe a b = true)
    (hbc : tupleLe b c = true) : tupleLe a c = true := by
  obtain ⟨a1, a2, a3⟩ := a
  obtain ⟨b1, b2, b3⟩ := b
  obtain ⟨c1, c2, c3⟩ := c
  simp only [tupleLe, Bool.or_eq_true, Bool.and_eq_true, Bool.not_eq_true',
    beq_iff_eq, decide_eq_true_eq] at hab hbc ⊢
  cases a1 <;> cases b1 <;> cases c1 <;> simp_all <;>
    [skip; skip] <;>
    rcases hab with hab | ⟨rfl, hab⟩ <;> rcases hbc with hbc | ⟨rfl, hbc⟩ <;>
      first
        | exact Or.inl (by omega)
        | exact Or.inr ⟨rfl, le_trans hab hbc⟩

instance (criticals : List String) (es : List (String × ℚ)) :
    IsTotal TaskInput (taskLe criticals es) :=
  ⟨fun _ _ => tupleLe_total _ _⟩

instance (criticals : List String) (es : List (String × ℚ)) :
    IsTrans TaskInput (taskLe criticals es) :=
  ⟨fun _ _ _ => tupleLe_trans _ _ _⟩

/-- C4 (amended): `sorted(tasks, key=task_priority)` sorts *ascending*
in the key `(is_critical, priority value, earliest_start)`.  Since
`False < True` in Python, every non-critical task is committed *before*
every critical task, and among equally-critical tasks a *lower*-priority
task is committed before a higher-priority one — the reverse of the
claimed order. -/
theorem c4_amended_sort_ascending (criticals : List String)
    (es : List (String × ℚ)) (tasks : List TaskInput) :
    List.Pairwise (taskLe criticals es) (sortedTasks criticals es tasks) ∧
    (∀ t u : TaskInput, taskLe criticals es t u →
      t.id ∈ criticals → u.id ∈ criticals) ∧
    (∀ t u : TaskInput, taskLe criticals es t u →
      decide (t.id ∈ criticals) = decide (u.id ∈ criticals) →
      priorityMap t.priority ≤ priorityMap u.priority) := by
  refine ⟨List.sorted_insertionSort _ tasks, ?_, ?_⟩
  · intro t u hle hcrit
    simp only [taskLe, task_priority, tupleLe, Bool.or_eq_true, Bool.and_eq_true,
      Bool.not_eq_true', beq_iff_eq, decide_eq_true_eq] at hle
    rw [decide_eq_true hcrit] at hle
    rcases hle with h | ⟨h, -⟩
    · cases h.1
    · exact of_decide_eq_true h.symm
  · intro t u hle heq
    simp only [taskLe, task_priority, tupleLe, Bool.or_eq_true, Bool.and_eq_true,
      Bool.not_eq_true', beq_iff_eq, decide_eq_true_eq] at hle
    rw [heq] at hle
    rcases hle with h | ⟨-, h | ⟨h, -⟩⟩
    · cases (decide (u.id ∈ criticals)) <;> simp_all
    · exact Nat.le_of_lt h
    · exact Nat.le_of_eq h

/-- C4 (counterexample to the claim as stated): on `exTasks1` the
computed critical path is `["C"]`, yet in the committed order the
critical task `C` comes *last* (index 3) while the non-critical,
low-priority task `D` comes first (index 0) — so a critical task is not
committed before every non-critical task, and among the non-critical
tasks the low-priority `D` precedes the medium-priority `A`. -/
theorem c4_critical_not_first_counterexample :
    ((forwardPass exTasks1).bind (fun p =>
      (backwardPass exTasks1 (pyMaxValues p.2)).map (fun q =>
        (decide ("C" ∈ criticalTasks exTasks1 p.1 q.1),
          decide ("D" ∈ criticalTasks exTasks1 p.1 q.1),
          ((sortedTasks (criticalTasks exTasks1 p.1 q.1) p.1 exTasks1).map
            (·.id)).indexOf "C",
          ((sortedTasks (criticalTasks exTasks1 p.1 q.1) p.1 exTasks1).map
            (·.id)).indexOf "D"))))
      = some (true, false, 3, 0) ∧ ¬ ((3 : ℕ) < 0) :=
  ⟨rfl, by decide⟩

/-- Witness for `c4_amended_sort_ascending` at the data of the
`exTasks1` run (critical path `["C"]`, earliest starts as computed). -/
theorem c4_amended_sort_ascending_witness :
    List.Pairwise (taskLe ["C"] [("D", 0), ("A", 0), ("B", 1), ("C", 0)])
      (sortedTasks ["C"] [("D", 0), ("A", 0), ("B", 1), ("C", 0)] exTasks1) ∧
    ("C" ∈ ["C"]) ∧
    priorityMap taskD.priority ≤ priorityMap taskA.priority :=
  ⟨(c4_amended_sort_ascending ["C"] [("D", 0), ("A", 0), ("B", 1), ("C", 0)]
      exTasks1).1,
    (c4_amended_sort_ascending ["C"] [("D", 0), ("A", 0), ("B", 1), ("C", 0)]
      exTasks1).2.1 taskC taskC (by decide) (by decide),
    (c4_amended_sort_ascending ["C"] [("D", 0), ("A", 0), ("B", 1), ("C", 0)]
      exTasks1).2.2 taskD taskA (by decide) (by decide)⟩

/-! ## Peak utilization reporting (claim C5) -/

theorem resourcePeaks_utilization (rd : String → Option ResourceInput)
    (usage : Usage) :
    ∀ rid info, pyGet (resourcePeaks rd usage) rid = some info →
      info.utilization = info.peak_usage / info.capacity := by
  have main : ∀ (l : Usage) (acc : List (String × PeakInfo)),
      (∀ rid info, pyGet acc rid = some info →
        info.utilization = info.peak_usage / info.capacity) →
      ∀ rid info,
        pyGet (l.foldl (fun acc ru =>
          if ru.2.isEmpty then acc
          else
            let cap := ((rd ru.1).getD junkResource).capacity
            let mx := pyMaxValues ru.2
            pySet acc ru.1 ⟨mx, cap, qdiv mx cap⟩) acc) rid = some info →
        info.utilization = info.peak_usage / info.capacity := by
    intro l
    induction l with
    | nil => exact fun acc h => h
    | cons ru rus ih =>
      intro acc h
      rw [List.foldl_cons]
      refine ih _ ?_
      by_cases he : ru.2.isEmpty
      · simpa [he] using h
      · intro rid' info' hget
        simp only [if_neg he] at hget
        by_cases hr : rid' = ru.1
        · subst hr
          rw [pyGet_pySet_self] at hget
          rcases Option.some.inj hget with rfl
          exact qdiv_eq _ _
        · rw [pyGet_pySet_ne _ _ _ _ hr] at hget
          exact h rid' info' hget
  refine main usage [] ?_
  intro rid info h
  simp [pyGet] at h

/-- C5 (amended): the smoothing engine guarantees no inequality between
the smoothed and the leveled peak-to-capacity ratios (the claimed
`smoothed ≤ original` fails, see the counterexample); what holds is that
both reported comparisons are exactly peak usage ÷ capacity of their
respective schedules, for every reported resource. -/
theorem c5_amended_reported_utilization (tasks : List TaskInput)
    (resources : List ResourceInput) (startDate : ℚ) (r : SmoothingResult)
    (h : resource_smoothing_algorithm tasks resources startDate = some r) :
    (∀ rid info, pyGet r.original_peaks rid = some info →
      info.utilization = info.peak_usage / info.capacity) ∧
    (∀ rid info, pyGet r.smoothed_peaks rid = some info →
      info.utilization = info.peak_usage / info.capacity) := by
  unfold resource_smoothing_algorithm at h
  cases hL : resource_leveling_algorithm tasks resources startDate with
  | none => rw [hL] at h; cases h
  | some leveled =>
    rw [hL] at h
    simp only [] at h
    cases hS : runSmooth (resourceDict resources)
        (pyInt leveled.project_duration_hours) startDate tasks ([], []) with
    | none => rw [hS] at h; cases h
    | some p =>
      obtain ⟨sched, usage⟩ := p
      rw [hS] at h
      simp only [] at h
      unfold smoothingFinish at h
      cases hE : (tasks.filter (fun t => pyMem sched t.id)).map
          (fun t => (pyGetD sched t.id junkSmoothEntry).end_time) with
      | nil => rw [hE] at h; cases h
      | cons e rest =>
        rw [hE] at h
        rcases Option.some.inj h with rfl
        exact ⟨resourcePeaks_utilization _ _, resourcePeaks_utilization _ _⟩

/-- C5 (counterexample to the claim as stated): with capacity 10 and two
independent quantity-3 tasks, leveling spreads them (peak 3,
utilization 3/10), but smoothing packs both at hour 0 because 6 units
stay below the 70 % target — the smoothed ratio 3/5 *exceeds* the
leveled 3/10. -/
theorem c5_smoothing_increases_peak_counterexample :
    ((resource_smoothing_algorithm [smA, smB, smC] [exR10] 0).map (fun r =>
      (pyGet r.original_peaks "R", pyGet r.smoothed_peaks "R")))
      = some (some ⟨3, 10, mkRat 3 10⟩, some ⟨6, 10, mkRat 3 5⟩) ∧
    ¬ ((mkRat 3 5 : ℚ) ≤ mkRat 3 10) :=
  ⟨rfl, by decide⟩

/-- Witness for `c5_amended_reported_utilization` at a one-task input. -/
theorem c5_amended_reported_utilization_witness :
    resource_smoothing_algorithm [baseTask] [baseRes] 0 = some
      { smoothed_schedule := [("T", ⟨0, 2, 2⟩)]
        smoothed_tasks := [⟨baseTask, 0, 2⟩]
        original_peaks := [("R", ⟨1, 5, mkRat 1 5⟩)]
        smoothed_peaks := [("R", ⟨1, 5, mkRat 1 5⟩)]
        resource_usage := [("R", [(0, 1), (1, 1)])]
        project_duration_hours := 2
        project_start_date := 0
        project_end_date := 2 } ∧
    (mkRat 1 5 : ℚ) = (1 : ℚ) / 5 :=
  ⟨rfl,
    (c5_amended_reported_utilization [baseTask] [baseRes] 0 _ rfl).2 "R"
      ⟨1, 5, mkRat 1 5⟩ rfl⟩

/-! ## Unknown resource requirements (claim C8) -/

theorem resourceDict_isSome_iff (resources : List ResourceInput) (rid : String) :
    (resourceDict resources rid).isSome = true ↔
      ∃ res ∈ resources, res.id = rid := by
  unfold resourceDict
  rw [List.find?_isSome]
  constructor
  · rintro ⟨res, hres, hbeq⟩
    exact ⟨res, List.mem_reverse.mp hres, by simpa using hbeq⟩
  · rintro ⟨res, hres, hid⟩
    exact ⟨res, List.mem_reverse.mpr hres, by simpa using hid⟩

theorem taskResources_keys (rd : String → Option ResourceInput)
    (reqs : List (String × ℚ)) (rid : String)
    (h : (pyGet (taskResources rd reqs) rid).isSome = true) :
    (rd rid).isSome = true := by
  unfold taskResources at h
  have main : ∀ (l : List (String × ℚ)) (acc : List (String × ℚ)),
      (∀ k, (pyGet acc k).isSome = true → (rd k).isSome = true) →
      (pyGet (l.foldl (fun d req =>
        if (rd req.1).isSome then pySet d req.1 req.2 else d) acc) rid).isSome = true →
      (rd rid).isSome = true := by
    intro l
    induction l with
    | nil => exact fun acc hacc h => hacc rid h
    | cons req rest ih =>
      intro acc hacc h
      rw [List.foldl_cons] at h
      refine ih _ ?_ h
      intro k hk
      by_cases hreq : (rd req.1).isSome = true
      · rw [if_pos hreq] at hk
        rcases (pyGet_pySet_isSome_iff acc req.1 k req.2).mp hk with rfl | hk'
        · exact hreq
        · exact hacc k hk'
      · rw [if_neg hreq] at hk
        exact hacc k hk
  refine main reqs [] ?_ h
  intro k hk
  simp [pyGet] at hk


theorem pyGet_isSome_iff_mem_keys {κ α : Type} [DecidableEq κ]
    (d : List (κ × α)) (k : κ) :
    (pyGet d k).isSome = true ↔ k ∈ d.map (·.1) := by
  induction d with
  | nil => simp [pyGet]
  | cons e es ih =>
    by_cases he : e.1 = k
    · simp [pyGet, he]
    · simp only [pyGet, he, if_false, List.map_cons, List.mem_cons, ih]
      constructor
      · exact Or.inr
      · rintro (h | h)
        · exact absurd h.symm he
        · exact h

theorem reserveTask_keys (usage : Usage) (taskRes : List (String × ℚ))
    (bestStart dur : ℚ) (rid : String)
    (h : (pyGet (reserveTask usage taskRes bestStart dur) rid).isSome = true) :
    (pyGet usage rid).isSome = true ∨ (pyGet taskRes rid).isSome = true := by
  unfold reserveTask at h
  have inner : ∀ (k : String) (q : ℚ) (hs : List ℚ) (u : Usage),
      (pyGet (hs.foldl (fun u2 h =>
        pySet u2 k
          (pySet (pyGetD u2 k []) (qadd bestStart h)
            (qadd (pyGetD (pyGetD u2 k []) (qadd bestStart h) 0) q))) u) rid).isSome
        = true →
      rid = k ∨ (pyGet u rid).isSome = true := by
    intro k q hs
    induction hs with
    | nil => exact fun u h => Or.inr h
    | cons x xs ih =>
      intro u h
      rw [List.foldl_cons] at h
      rcases ih _ h with h' | h'
      · exact Or.inl h'
      · rcases (pyGet_pySet_isSome_iff u k rid _).mp h' with rfl | h''
        · exact Or.inl rfl
        · exact Or.inr h''
  have main : ∀ (l : List (String × ℚ)) (u : Usage),
      (pyGet (l.foldl (fun u rq =>
        let u1 := if pyMem u rq.1 then u else pySet u rq.1 []
        (pyRange (pyInt dur)).foldl (fun u2 h =>
          let slot := qadd bestStart h
          pySet u2 rq.1
            (pySet (pyGetD u2 rq.1 []) slot
              (qadd (pyGetD (pyGetD u2 rq.1 []) slot 0) rq.2))) u1) u) rid).isSome
        = true →
      (pyGet u rid).isSome = true ∨ rid ∈ l.map (·.1) := by
    intro l
    induction l with
    | nil => exact fun u h => Or.inl h
    | cons rq rest ih =>
      intro u h
      rw [List.foldl_cons] at h
      rcases ih _ h with h' | h'
      · rcases inner rq.1 rq.2 (pyRange (pyInt dur)) _ h' with rfl | h''
        · exact Or.inr (List.mem_cons_self _ _)
        · by_cases hm : pyMem u rq.1 = true
          · rw [if_pos hm] at h''
            exact Or.inl h''
          · rw [if_neg hm] at h''
            rcases (pyGet_pySet_isSome_iff u rq.1 rid []).mp h'' with rfl | h3
            · exact Or.inr (List.mem_cons_self _ _)
            · exact Or.inl h3
      · exact Or.inr (List.mem_cons_of_mem _ h')
  rcases main taskRes usage h with h' | h'
  · exact Or.inl h'
  · exact Or.inr ((pyGet_isSome_iff_mem_keys taskRes rid).mpr h')

/-- C8 (amended): requirements naming an unknown resource id are
silently filtered out (line 146's membership test and the matching
guards of the optimizer), the run completes, and every key of the
returned `resource_usage` names a resource of the supplied list. -/
theorem c8_amended_unknown_requirements_dropped (tasks : List TaskInput)
    (resources : List ResourceInput) (startDate : ℚ) (r : LevelingResult)
    (h : resource_leveling_algorithm tasks resources startDate = some r) :
    ∀ rid, (pyGet r.resource_usage rid).isSome = true →
      ∃ res ∈ resources, res.id = rid := by
  unfold resource_leveling_algorithm at h
  cases hF : forwardPass tasks with
  | none => rw [hF] at h; cases h
  | some p =>
    obtain ⟨es, ef⟩ := p
    rw [hF] at h
    simp only [] at h
    cases hB : backwardPass tasks (pyMaxValues ef) with
    | none => rw [hB] at h; cases h
    | some q =>
      obtain ⟨ls, lf⟩ := q
      rw [hB] at h
      simp only [] at h
      have husage : ∀ rid,
          (pyGet (levelingSchedule tasks resources startDate es ls).2 rid).isSome = true →
          (resourceDict resources rid).isSome = true := by
        unfold levelingSchedule
        have main : ∀ (l : List TaskInput)
            (st : List (String × ScheduleEntry) × Usage),
            (∀ rid, (pyGet st.2 rid).isSome = true →
              (resourceDict resources rid).isSome = true) →
            ∀ rid,
              (pyGet (l.foldl (scheduleStep (resourceDict resources)
                (criticalTasks tasks es ls) es ls startDate) st).2 rid).isSome = true →
              (resourceDict resources rid).isSome = true := by
          intro l
          induction l with
          | nil => exact fun st hst => hst
          | cons t rest ih =>
            intro st hst
            rw [List.foldl_cons]
            refine ih _ ?_
            intro rid hrid
            rcases reserveTask_keys st.2
                (taskResources (resourceDict resources) t.required_resources)
                _ _ rid hrid with h' | h'
            · exact hst rid h'
            · exact taskResources_keys (resourceDict resources)
                t.required_resources rid h'
        refine main _ ([], []) ?_
        intro rid hrid
        simp [pyGet] at hrid
      intro rid hrid
      rw [← resourceDict_isSome_iff]
      refine husage rid ?_
      unfold levelingFinish at h
      cases hE : (tasks.filter
          (fun t => pyMem (levelingSchedule tasks resources startDate es ls).1 t.id)).map
          (fun t => (pyGetD (levelingSchedule tasks resources startDate es ls).1
            t.id junkEntry).end_time) with
      | nil => rw [hE] at h; cases h
      | cons e rest =>
        rw [hE] at h
        rcases Option.some.inj h with rfl
        exact hrid

/-- C8 (counterexample to the claim as stated): a task requiring only
the unknown resource id `"X"` does not abort the run — the requirement
is dropped, the task is scheduled, and no usage is recorded. -/
theorem c8_unknown_resource_not_fatal_counterexample :
    ((resource_leveling_algorithm [unkT] [exR1] 0).map (fun r =>
      (r.resource_usage, r.schedule.length))) = some ([], 1) :=
  rfl

/-- Witness for `c8_amended_unknown_requirements_dropped` at a one-task
input whose single requirement is known. -/
theorem c8_amended_witness :
    resource_leveling_algorithm [baseTask] [baseRes] 0 = some
      { schedule := [("T", ⟨0, 2, 2, true, 0⟩)]
        leveled_tasks := [⟨baseTask, 0, 2, true, 0⟩]
        critical_path := ["T"]
        resource_usage := [("R", [(0, 1), (1, 1)])]
        project_duration_hours := 2
        project_start_date := 0
        project_end_date := 2 } ∧
    ∃ res ∈ [baseRes], res.id = "R" :=
  ⟨rfl,
    c8_amended_unknown_requirements_dropped [baseTask] [baseRes] 0 _ rfl "R" rfl⟩

/-! ## Hourly reservation granularity (claim C9) -/

theorem pyRange_nil_of_lt_one (dur : ℚ) (h : dur < 1) :
    pyRange (pyInt dur) = [] := by
  unfold pyRange pyInt
  by_cases h0 : 0 ≤ dur
  · rw [if_pos h0]
    have hf : ⌊dur⌋ = 0 := by
      rw [Int.floor_eq_zero_iff]
      exact ⟨h0, h⟩
    rw [hf]
    rfl
  · rw [if_neg h0]
    have hc : ⌈dur⌉ ≤ 0 := by
      rw [Int.ceil_le]
      push_cast
      exact le_of_lt (not_le.mp h0)
    rw [Int.toNat_of_nonpos hc]
    rfl

theorem evalResources_no_hours (rd : String → Option ResourceInput)
    (usage : Usage) (dur cand : ℚ) (h : dur < 1) :
    ∀ (taskRes : List (String × ℚ)) (peak : ℚ),
      evalResources rd usage dur cand taskRes peak = (false, peak) := by
  intro taskRes
  induction taskRes with
  | nil => exact fun peak => rfl
  | cons rq rest ih =>
    intro peak
    unfold evalResources
    rw [pyRange_nil_of_lt_one dur h]
    exact ih peak

theorem pySet_keys_nodup {κ α : Type} [DecidableEq κ]
    (d : List (κ × α)) (k : κ) (v : α) (h : (d.map (·.1)).Nodup) :
    ((pySet d k v).map (·.1)).Nodup := by
  induction d with
  | nil => simp [pySet]
  | cons e es ih =>
    rw [List.map_cons, List.nodup_cons] at h
    by_cases he : e.1 = k
    · simp only [pySet, he, if_true, List.map_cons, List.nodup_cons]
      exact ⟨he ▸ h.1, h.2⟩
    · simp only [pySet, he, if_false, List.map_cons, List.nodup_cons]
      refine ⟨?_, ih h.2⟩
      intro hmem
      rw [← pyGet_isSome_iff_mem_keys] at hmem
      rcases (pyGet_pySet_isSome_iff es k e.1 v).mp hmem with h' | h'
      · exact he h'
      · exact h.1 ((pyGet_isSome_iff_mem_keys es e.1).mp h')

theorem taskResources_nodup (rd : String → Option ResourceInput)
    (reqs : List (String × ℚ)) :
    ((taskResources rd reqs).map (·.1)).Nodup := by
  unfold taskResources
  have main : ∀ (l : List (String × ℚ)) (acc : List (String × ℚ)),
      (acc.map (·.1)).Nodup →
      ((l.foldl (fun d req =>
        if (rd req.1).isSome then pySet d req.1 req.2 else d) acc).map (·.1)).Nodup := by
    intro l
    induction l with
    | nil => exact fun acc h => h
    | cons req rest ih =>
      intro acc h
      rw [List.foldl_cons]
      by_cases hreq : (rd req.1).isSome = true
      · rw [if_pos hreq]
        exact ih _ (pySet_keys_nodup acc req.1 req.2 h)
      · rw [if_neg hreq]
        exact ih _ h
  exact main reqs [] List.nodup_nil

theorem usageGet_addSlot_self (u : Usage) (k : String) (slot q : ℚ) :
    usageGet (pySet u k (pySet (pyGetD u k []) slot
      (qadd (pyGetD (pyGetD u k []) slot 0) q))) k slot =
    qadd (usageGet u k slot) q := by
  unfold usageGet pyGetD
  rw [pyGet_pySet_self]
  simp only [Option.getD_some]
  rw [pyGet_pySet_self]
  rfl

theorem usageGet_addSlot_other_slot (u : Usage) (k : String) (slot slot' v : ℚ)
    (h : slot' ≠ slot) :
    usageGet (pySet u k (pySet (pyGetD u k []) slot v)) k slot' =
    usageGet u k slot' := by
  unfold usageGet pyGetD
  rw [pyGet_pySet_self]
  simp only [Option.getD_some]
  rw [pyGet_pySet_ne _ _ _ _ h]

theorem usageGet_pySet_other_key (u : Usage) (k k' : String) (inner : List (ℚ × ℚ))
    (slot : ℚ) (h : k' ≠ k) :
    usageGet (pySet u k inner) k' slot = usageGet u k' slot := by
  unfold usageGet pyGetD
  rw [pyGet_pySet_ne _ _ _ _ h]

theorem pyRange_nodup (n : ℤ) : (pyRange n).Nodup := by
  unfold pyRange
  refine List.Nodup.map ?_ (List.nodup_range n.toNat)
  intro a b hab
  simp only at hab
  exact_mod_cast hab

theorem pyRange_map_qadd_nodup (best : ℚ) (n : ℤ) :
    ((pyRange n).map (fun h => qadd best h)).Nodup := by
  refine List.Nodup.map ?_ (pyRange_nodup n)
  intro a b hab
  simp only [qadd_eq] at hab
  exact add_left_cancel hab

theorem usageGet_hourFold (k : String) (q best : ℚ) :
    ∀ (hs : List ℚ), ((hs.map (fun h => qadd best h)).Nodup) →
      ∀ (u : Usage) (slot : ℚ),
        usageGet (hs.foldl (fun u2 h =>
          pySet u2 k (pySet (pyGetD u2 k []) (qadd best h)
            (qadd (pyGetD (pyGetD u2 k []) (qadd best h) 0) q))) u) k slot =
        if slot ∈ hs.map (fun h => qadd best h) then qadd (usageGet u k slot) q
        else usageGet u k slot := by
  intro hs
  induction hs with
  | nil =>
    intro _ u slot
    simp
  | cons x xs ih =>
    intro hnd u slot
    rw [List.map_cons, List.nodup_cons] at hnd
    rw [List.foldl_cons, ih hnd.2]
    by_cases hx : slot = qadd best x
    · subst hx
      rw [List.map_cons, if_neg hnd.1, if_pos (List.mem_cons_self _ _)]
      exact usageGet_addSlot_self u k (qadd best x) q
    · rw [List.map_cons]
      simp only [List.mem_cons, hx, false_or]
      have hother := usageGet_addSlot_other_slot u k (qadd best x) slot
        (qadd (pyGetD (pyGetD u k []) (qadd best x) 0) q) hx
      rw [hother]

theorem usageGet_hourFold_other_key (k k' : String) (q best : ℚ) (h : k' ≠ k) :
    ∀ (hs : List ℚ) (u : Usage) (slot : ℚ),
      usageGet (hs.foldl (fun u2 h =>
        pySet u2 k (pySet (pyGetD u2 k []) (qadd best h)
          (qadd (pyGetD (pyGetD u2 k []) (qadd best h) 0) q))) u) k' slot =
      usageGet u k' slot := by
  intro hs
  induction hs with
  | nil => exact fun u slot => rfl
  | cons x xs ih =>
    intro u slot
    rw [List.foldl_cons, ih, usageGet_pySet_other_key _ _ _ _ _ h]

theorem usageGet_init (u : Usage) (k k' : String) (slot : ℚ) :
    usageGet (if pyMem u k then u else pySet u k []) k' slot =
    usageGet u k' slot := by
  by_cases hm : pyMem u k = true
  · rw [if_pos hm]
  · rw [if_neg hm]
    by_cases hk : k' = k
    · subst hk
      unfold usageGet pyGetD
      rw [pyGet_pySet_self]
      unfold pyMem at hm
      cases hg : pyGet u k' with
      | none => simp
      | some inner => rw [hg] at hm; simp at hm
    · exact usageGet_pySet_other_key u k k' [] slot hk

theorem usageGet_reserveTask (best dur : ℚ) :
    ∀ (taskRes : List (String × ℚ)) (usage : Usage),
      (taskRes.map (·.1)).Nodup →
      (∀ rid q slot, pyGet taskRes rid = some q →
        usageGet (reserveTask usage taskRes best dur) rid slot =
          if slot ∈ (pyRange (pyInt dur)).map (fun h => qadd best h)
          then qadd (usageGet usage rid slot) q else usageGet usage rid slot) ∧
      (∀ rid slot, pyGet taskRes rid = none →
        usageGet (reserveTask usage taskRes best dur) rid slot =
          usageGet usage rid slot) := by
  intro taskRes
  induction taskRes with
  | nil =>
    intro usage _
    constructor
    · intro rid q slot h
      simp [pyGet] at h
    · intro rid slot _
      rfl
  | cons rq rest ih =>
    intro usage hnd
    rw [List.map_cons, List.nodup_cons] at hnd
    set u' := (pyRange (pyInt dur)).foldl
      (fun u2 h => pySet u2 rq.1 (pySet (pyGetD u2 rq.1 []) (qadd best h)
        (qadd (pyGetD (pyGetD u2 rq.1 []) (qadd best h) 0) rq.2)))
      (if pyMem usage rq.1 then usage else pySet usage rq.1 []) with hu'
    have hre : reserveTask usage (rq :: rest) best dur =
        reserveTask u' rest best dur := rfl
    have hu'Get : ∀ slot, usageGet u' rq.1 slot =
        if slot ∈ (pyRange (pyInt dur)).map (fun h => qadd best h)
        then qadd (usageGet usage rq.1 slot) rq.2
        else usageGet usage rq.1 slot := by
      intro slot
      rw [hu', usageGet_hourFold rq.1 rq.2 best (pyRange (pyInt dur))
        (pyRange_map_qadd_nodup best _) _ slot]
      by_cases hin : slot ∈ (pyRange (pyInt dur)).map (fun h => qadd best h)
      · rw [if_pos hin, if_pos hin, usageGet_init]
      · rw [if_neg hin, if_neg hin, usageGet_init]
    have hu'Other : ∀ rid slot, rid ≠ rq.1 →
        usageGet u' rid slot = usageGet usage rid slot := by
      intro rid slot hne
      rw [hu', usageGet_hourFold_other_key rq.1 rid rq.2 best hne, usageGet_init]
    constructor
    · intro rid q slot hget
      by_cases hr : rq.1 = rid
      · subst hr
        have hq : q = rq.2 := by
          simp [pyGet] at hget
          exact hget.symm
        subst hq
        have hnone : pyGet rest rq.1 = none := by
          cases hg : pyGet rest rq.1 with
          | none => rfl
          | some v =>
            exact absurd ((pyGet_isSome_iff_mem_keys rest rq.1).mp
              (by rw [hg]; rfl)) hnd.1
        rw [hre, (ih u' hnd.2).2 rq.1 slot hnone]
        exact hu'Get slot
      · have hget' : pyGet rest rid = some q := by
          simpa [pyGet, hr] using hget
        rw [hre, (ih u' hnd.2).1 rid q slot hget',
          hu'Other rid slot (fun hh => hr hh.symm)]
    · intro rid slot hget
      have hr : ¬ rq.1 = rid := by
        intro hh
        simp [pyGet, hh] at hget
      have hget' : pyGet rest rid = none := by
        simpa [pyGet, hr] using hget
      rw [hre, (ih u' hnd.2).2 rid slot hget',
        hu'Other rid slot (fun hh => hr hh.symm)]

/-- C9: committing a task reserves exactly the `range(int(duration))`
hourly slots.  (i) For a required resource with quantity `q`, usage
grows by `q` exactly on the slots `best + h`, `h < ⌊duration⌋`, and
(ii) is untouched for ids outside the filtered requirement dict.
(iii) For `duration < 1` the hour range is empty: the candidate
evaluation reports no conflict for any candidate (and leaves the peak
accumulator untouched), and committing reserves nothing.  (iv) The
recorded schedule entry still spans the full fractional duration. -/
theorem c9_floor_duration_reservation (rd : String → Option ResourceInput)
    (usage : Usage) (reqs : List (String × ℚ)) (best dur : ℚ) :
    (∀ rid q slot, pyGet (taskResources rd reqs) rid = some q →
      usageGet (reserveTask usage (taskResources rd reqs) best dur) rid slot =
        if slot ∈ (pyRange (pyInt dur)).map (fun h => qadd best h)
        then qadd (usageGet usage rid slot) q else usageGet usage rid slot) ∧
    (∀ rid slot, pyGet (taskResources rd reqs) rid = none →
      usageGet (reserveTask usage (taskResources rd reqs) best dur) rid slot =
        usageGet usage rid slot) ∧
    (dur < 1 →
      pyRange (pyInt dur) = [] ∧
      (∀ cand taskRes peak,
        evalResources rd usage dur cand taskRes peak = (false, peak)) ∧
      (∀ rid slot,
        usageGet (reserveTask usage (taskResources rd reqs) best dur) rid slot =
          usageGet usage rid slot)) ∧
    (∀ (criticals : List String) (es ls : List (String × ℚ)) (startDate : ℚ)
      (st : List (String × ScheduleEntry) × Usage) (task : TaskInput),
      qsub (pyGetD (scheduleStep rd criticals es ls startDate st task).1
          task.id junkEntry).end_time
        (pyGetD (scheduleStep rd criticals es ls startDate st task).1
          task.id junkEntry).start_time = task.duration) := by
  obtain ⟨hsome, hnone⟩ := usageGet_reserveTask best dur (taskResources rd reqs)
    usage (taskResources_nodup rd reqs)
  refine ⟨hsome, hnone, ?_, ?_⟩
  · intro hdur
    refine ⟨pyRange_nil_of_lt_one dur hdur,
      fun cand taskRes peak => evalResources_no_hours rd usage dur cand hdur taskRes peak,
      ?_⟩
    intro rid slot
    cases hget : pyGet (taskResources rd reqs) rid with
    | none => exact hnone rid slot hget
    | some q =>
      rw [hsome rid q slot hget, pyRange_nil_of_lt_one dur hdur]
      simp
  · intro criticals es ls startDate st task
    show qsub (pyGetD (pySet st.1 task.id _) task.id junkEntry).end_time
      (pyGetD (pySet st.1 task.id _) task.id junkEntry).start_time = task.duration
    unfold pyGetD
    rw [pyGet_pySet_self]
    simp only [Option.getD_some]
    rw [qsub_eq, qadd_eq, qadd_eq, qadd_eq]
    ring

/-- Witness for `c9_floor_duration_reservation`: a half-hour task
(duration `1/2 < 1`) reserves nothing, conflicts with nothing, and its
schedule entry spans exactly half an hour. -/
theorem c9_floor_duration_reservation_witness :
    ((mkRat 1 2 : ℚ) < 1) ∧
    pyRange (pyInt (mkRat 1 2)) = [] ∧
    usageGet (reserveTask []
      (taskResources (resourceDict [exR1]) [("R", 1)]) 0 (mkRat 1 2)) "R" 0 =
      usageGet [] "R" 0 ∧
    evalResources (resourceDict [exR1]) [] (mkRat 1 2) 0 [("R", 1)] 0 =
      (false, 0) ∧
    qsub (pyGetD (scheduleStep (resourceDict [exR1]) [] [] [] 0 ([], [])
        ⟨"F", "f", mkRat 1 2, [("R", 1)], [], "medium"⟩).1
        "F" junkEntry).end_time
      (pyGetD (scheduleStep (resourceDict [exR1]) [] [] [] 0 ([], [])
        ⟨"F", "f", mkRat 1 2, [("R", 1)], [], "medium"⟩).1
        "F" junkEntry).start_time = mkRat 1 2 :=
  ⟨by decide,
    ((c9_floor_duration_reservation (resourceDict [exR1]) [] [("R", 1)] 0
      (mkRat 1 2)).2.2.1 (by decide)).1,
    ((c9_floor_duration_reservation (resourceDict [exR1]) [] [("R", 1)] 0
      (mkRat 1 2)).2.2.1 (by decide)).2.2 "R" 0,
    ((c9_floor_duration_reservation (resourceDict [exR1]) [] [("R", 1)] 0
      (mkRat 1 2)).2.2.1 (by decide)).2.1 0 [("R", 1)] 0,
    (c9_floor_duration_reservation (resourceDict [exR1]) [] [("R", 1)] 0
      (mkRat 1 2)).2.2.2 [] [] [] 0 ([], [])
      ⟨"F", "f", mkRat 1 2, [("R", 1)], [], "medium"⟩⟩

/-! ## Scenario analysis (claims C7 and C10) -/

/-- C7 (evaluation at the failing input): the base scenario optimizes
fine, but adding one named variation with all factors `1.0` — applied to
task durations and resource costs as the claim demands — aborts the
whole analysis instead of reproducing the base result: line 505 assigns
`task.duration_hours`, a field `TaskInput` does not declare, so pydantic
raises on the first task. -/
theorem c7_all_ones_variation_crashes :
    analyze_scenarios baseInput [("v1", [("duration", 1), ("cost", 1)])] = none ∧
    (optimize_resource_allocation baseInput).isSome = true :=
  ⟨rfl, rfl⟩

theorem applyVariations_cost (tasks : List TaskInput)
    (resources : List ResourceInput) (f : ℚ) :
    applyVariations tasks resources [("cost", f)] =
      some (tasks, resources.map (fun r =>
        { r with cost_per_hour := qmul r.cost_per_hour f })) := by
  unfold applyVariations
  rw [if_neg (by decide : ¬ ("cost" = "duration")), if_pos rfl]
  rfl

/-- C10: with two successive cost variations, the second scenario's
optimizer input carries *both* factors — `modified_input` is a shallow
pydantic copy, so the multiplications mutate the resource records shared
with the base configuration and accumulate across iterations.  The
result recorded under the second scenario name equals an optimizer run
whose every cost-per-hour is `(cost · f1) · f2`, not `cost · f2`. -/
theorem c10_cost_factors_stack (base : OptimizationInput) (n1 n2 : String)
    (f1 f2 : ℚ) (results : List (String × OptimizationResult))
    (h : analyze_scenarios base
      [(n1, [("cost", f1)]), (n2, [("cost", f2)])] = some results) :
    pyGet results n2 = optimize_resource_allocation
      { base with resources := base.resources.map (fun r =>
          { r with cost_per_hour := qmul (qmul r.cost_per_hour f1) f2 }) } := by
  unfold analyze_scenarios at h
  cases hbase : optimize_resource_allocation base with
  | none => rw [hbase] at h; cases h
  | some b =>
    rw [hbase] at h
    try simp only [] at h
    unfold runScenarios at h
    rw [applyVariations_cost] at h
    try simp only [] at h
    cases hopt1 : optimize_resource_allocation
        { base with
          tasks := base.tasks
          resources := base.resources.map (fun r =>
            { r with cost_per_hour := qmul r.cost_per_hour f1 }) } with
    | none => rw [hopt1] at h; cases h
    | some r1 =>
      rw [hopt1] at h
      try simp only [] at h
      unfold runScenarios at h
      rw [applyVariations_cost] at h
      try simp only [] at h
      rw [List.map_map] at h
      cases hopt2 : optimize_resource_allocation
          { base with
            tasks := base.tasks
            resources := base.resources.map
              ((fun r => { r with cost_per_hour := qmul r.cost_per_hour f2 }) ∘
                (fun r => { r with cost_per_hour := qmul r.cost_per_hour f1 })) } with
      | none => rw [hopt2] at h; cases h
      | some r2 =>
        rw [hopt2] at h
        try simp only [] at h
        unfold runScenarios at h
        rcases Option.some.inj h with rfl
        rw [pyGet_pySet_self]
        rw [← hopt2]
        rfl

/-- Witness for `c10_cost_factors_stack`: base cost 10, factors 2 then
3 — the second scenario's recorded total cost is 120 = 20·2·3, not
60. -/
theorem c10_cost_factors_stack_witness :
    (analyze_scenarios baseInput [("v1", [("cost", 2)]), ("v2", [("cost", 3)])]).isSome
      = true ∧
    ((analyze_scenarios baseInput
        [("v1", [("cost", 2)]), ("v2", [("cost", 3)])]).getD []).map
      (fun p => (p.1, p.2.total_cost)) = [("base", 20), ("v1", 40), ("v2", 120)] ∧
    pyGet ((analyze_scenarios baseInput
        [("v1", [("cost", 2)]), ("v2", [("cost", 3)])]).getD []) "v2" =
      optimize_resource_allocation
        { baseInput with resources := baseInput.resources.map (fun r =>
            { r with cost_per_hour := qmul (qmul r.cost_per_hour 2) 3 }) } :=
  ⟨rfl, rfl,
    c10_cost_factors_stack baseInput "v1" "v2" 2 3 _ rfl⟩

/-! ## Critical-path correctness on acyclic inputs (claims C3, C6)

The recursive passes memoize into shared dicts; on an acyclic task set
they compute the standard CPM quantities.  Acyclicity is witnessed by a
topological rank.  `mEF`/`mLS` are fuel-indexed versions of the CPM
recurrences; `cpmEF`/`cpmES`/`cpmLS` are their stable values. -/

/-- A topological rank: every valid dependency edge decreases the rank.
Its existence is the acyclicity of the dependency graph. -/
def WfRank (tasks : List TaskInput) (rank : String → ℕ) : Prop :=
  ∀ t ∈ tasks, ∀ d ∈ t.dependencies, d ∈ taskIds tasks → rank d < rank t.id

/-- `WfRank` transported to the task dictionary. -/
def WfTd (td : String → Option TaskInput) (rank : String → ℕ) : Prop :=
  ∀ tid task, td tid = some task → ∀ d ∈ task.dependencies,
    (td d).isSome = true → rank d < rank tid

theorem taskDict_some_spec (tasks : List TaskInput) (tid : String)
    (task : TaskInput) (h : taskDict tasks tid = some task) :
    task ∈ tasks ∧ task.id = tid := by
  unfold taskDict at h
  refine ⟨List.mem_reverse.mp (List.mem_of_find?_eq_some h), ?_⟩
  have := List.find?_some h
  simpa using this

theorem wfRank_td (tasks : List TaskInput) (rank : String → ℕ)
    (hwf : WfRank tasks rank) : WfTd (taskDict tasks) rank := by
  intro tid task htask d hd hds
  obtain ⟨hmem, hid⟩ := taskDict_some_spec tasks tid task htask
  have hdt : d ∈ taskIds tasks := (taskDict_isSome_iff tasks d).mp hds
  have := hwf task hmem d hd hdt
  rwa [hid] at this

theorem taskDict_self (tasks : List TaskInput)
    (hnd : (taskIds tasks).Nodup) (t : TaskInput) (ht : t ∈ tasks) :
    taskDict tasks t.id = some t := by
  have hs : (taskDict tasks t.id).isSome = true := by
    rw [taskDict_isSome_iff]
    exact List.mem_map_of_mem TaskInput.id ht
  obtain ⟨t', ht'⟩ := Option.isSome_iff_exists.mp hs
  obtain ⟨hmem', hid'⟩ := taskDict_some_spec tasks t.id t' ht'
  have : t' = t :=
    List.inj_on_of_nodup_map hnd hmem' ht hid'
  rw [ht', this]

/-- The fold of the CPM earliest-finish recurrence over a dependency
list (the mathematical counterpart of `calcEDeps`). -/
def depsMaxEF (td : String → Option TaskInput) (g : String → ℚ) :
    List String → ℚ → ℚ
  | [], m => m
  | d :: ds, m =>
    if (td d).isSome then depsMaxEF td g ds (qmax m (g d))
    else depsMaxEF td g ds m

/-- Fuel-indexed CPM earliest finish. -/
def mEF (td : String → Option TaskInput) : ℕ → String → ℚ
  | 0, _ => 0
  | n + 1, tid =>
    match td tid with
    | none => 0
    | some task => qadd (depsMaxEF td (mEF td n) task.dependencies 0) task.duration

/-- CPM earliest finish of a task (stable value of `mEF`). -/
def cpmEF (td : String → Option TaskInput) (rank : String → ℕ)
    (tid : String) : ℚ :=
  mEF td (rank tid + 1) tid

/-- CPM earliest start of a task. -/
def cpmES (td : String → Option TaskInput) (rank : String → ℕ)
    (tid : String) : ℚ :=
  match td tid with
  | none => 0
  | some task => depsMaxEF td (cpmEF td rank) task.dependencies 0

theorem depsMaxEF_congr (td : String → Option TaskInput) (g g' : String → ℚ) :
    ∀ (ds : List String), (∀ d ∈ ds, (td d).isSome = true → g d = g' d) →
      ∀ m, depsMaxEF td g ds m = depsMaxEF td g' ds m := by
  intro ds
  induction ds with
  | nil => intro _ m; rfl
  | cons d ds ih =>
    intro h m
    by_cases hd : (td d).isSome = true
    · simp only [depsMaxEF, if_pos hd]
      rw [h d (List.mem_cons_self _ _) hd]
      exact ih (fun x hx => h x (List.mem_cons_of_mem _ hx)) _
    · simp only [depsMaxEF, if_neg hd]
      exact ih (fun x hx => h x (List.mem_cons_of_mem _ hx)) _

theorem mEF_stable (td : String → Option TaskInput) (rank : String → ℕ)
    (hw : WfTd td rank) :
    ∀ n tid, rank tid < n → mEF td n tid = cpmEF td rank tid := by
  intro n
  induction n using Nat.strong_induction_on with
  | _ n ih =>
    intro tid hlt
    obtain ⟨n', rfl⟩ : ∃ n', n = n' + 1 := ⟨n - 1, by omega⟩
    unfold cpmEF
    show mEF td (n' + 1) tid = mEF td (rank tid + 1) tid
    cases htask : td tid with
    | none => simp only [mEF, htask]
    | some task =>
      simp only [mEF, htask]
      congr 1
      refine depsMaxEF_congr td _ _ task.dependencies ?_ 0
      intro d hd hds
      have hrd : rank d < rank tid := hw tid task htask d hd hds
      have h1 : mEF td n' d = cpmEF td rank d := ih n' (by omega) d (by omega)
      have h2 : mEF td (rank tid) d = cpmEF td rank d :=
        ih (rank tid) (by omega) d hrd
      rw [h1, h2]

theorem cpmEF_unfold (td : String → Option TaskInput) (rank : String → ℕ)
    (hw : WfTd td rank) (tid : String) (task : TaskInput)
    (htask : td tid = some task) :
    cpmEF td rank tid = qadd (cpmES td rank tid) task.duration := by
  unfold cpmEF cpmES
  simp only [mEF, htask]
  congr 1
  refine depsMaxEF_congr td _ _ task.dependencies ?_ 0
  intro d hd hds
  exact mEF_stable td rank hw (rank tid) d (hw tid task htask d hd hds)

theorem cpmEF_none (td : String → Option TaskInput) (rank : String → ℕ)
    (tid : String) (htask : td tid = none) : cpmEF td rank tid = 0 := by
  unfold cpmEF
  simp only [mEF, htask]

/-- The fold of the CPM latest-start recurrence over the dependent scan
(the mathematical counterpart of `calcLDeps`). -/
def depsMinLS (tid : String) (g : String → ℚ) :
    List TaskInput → ℚ → ℚ
  | [], m => m
  | ot :: ots, m =>
    if tid ∈ ot.dependencies then depsMinLS tid g ots (qmin m (g ot.id))
    else depsMinLS tid g ots m

/-- Fuel-indexed CPM latest start (seeded with the project end `pe`). -/
def mLS (td : String → Option TaskInput) (tasks : List TaskInput) (pe : ℚ) :
    ℕ → String → ℚ
  | 0, _ => pe
  | n + 1, tid =>
    match td tid with
    | none => pe
    | some task => qsub (depsMinLS tid (mLS td tasks pe n) tasks pe) task.duration

/-- CPM latest start of a task (stable value of `mLS` for rank bound `N`). -/
def cpmLS (td : String → Option TaskInput) (tasks : List TaskInput) (pe : ℚ)
    (rank : String → ℕ) (N : ℕ) (tid : String) : ℚ :=
  mLS td tasks pe (N - rank tid) tid

theorem depsMinLS_congr (tid : String) (g g' : String → ℚ) :
    ∀ (ots : List TaskInput), (∀ ot ∈ ots, tid ∈ ot.dependencies → g ot.id = g' ot.id) →
      ∀ m, depsMinLS tid g ots m = depsMinLS tid g' ots m := by
  intro ots
  induction ots with
  | nil => intro _ m; rfl
  | cons ot ots ih =>
    intro h m
    by_cases hd : tid ∈ ot.dependencies
    · simp only [depsMinLS, if_pos hd]
      rw [h ot (List.mem_cons_self _ _) hd]
      exact ih (fun x hx => h x (List.mem_cons_of_mem _ hx)) _
    · simp only [depsMinLS, if_neg hd]
      exact ih (fun x hx => h x (List.mem_cons_of_mem _ hx)) _

theorem mLS_stable (tasks : List TaskInput) (pe : ℚ) (rank : String → ℕ)
    (N : ℕ) (hwf : WfRank tasks rank)
    (hN : ∀ t ∈ tasks, rank t.id < N) :
    ∀ n tid, tid ∈ taskIds tasks → N - rank tid ≤ n →
      mLS (taskDict tasks) tasks pe n tid =
        cpmLS (taskDict tasks) tasks pe rank N tid := by
  intro n
  induction n using Nat.strong_induction_on with
  | _ n ih =>
    intro tid htid hle
    have hrank : rank tid < N := by
      obtain ⟨t, ht, rfl⟩ := List.mem_map.mp htid
      exact hN t ht
    obtain ⟨n', rfl⟩ : ∃ n', n = n' + 1 := ⟨n - 1, by omega⟩
    obtain ⟨k, hk⟩ : ∃ k, N - rank tid = k + 1 := ⟨N - rank tid - 1, by omega⟩
    have hsome : (taskDict tasks tid).isSome = true :=
      (taskDict_isSome_iff tasks tid).mpr htid
    obtain ⟨task, htask⟩ := Option.isSome_iff_exists.mp hsome
    unfold cpmLS
    rw [hk]
    simp only [mLS, htask]
    congr 1
    refine depsMinLS_congr tid _ _ tasks ?_ pe
    intro ot hot hdep
    have hotrank : rank tid < rank ot.id := hwf ot hot tid hdep htid
    have hotmem : ot.id ∈ taskIds tasks := List.mem_map_of_mem TaskInput.id hot
    have h1 : mLS (taskDict tasks) tasks pe n' ot.id =
        cpmLS (taskDict tasks) tasks pe rank N ot.id :=
      ih n' (by omega) ot.id hotmem (by omega)
    have h2 : mLS (taskDict tasks) tasks pe k ot.id =
        cpmLS (taskDict tasks) tasks pe rank N ot.id :=
      ih k (by omega) ot.id hotmem (by omega)
    rw [h1, h2]

theorem cpmLS_unfold (tasks : List TaskInput) (pe : ℚ) (rank : String → ℕ)
    (N : ℕ) (hwf : WfRank tasks rank) (hN : ∀ t ∈ tasks, rank t.id < N)
    (tid : String) (task : TaskInput) (htid : tid ∈ taskIds tasks)
    (htask : taskDict tasks tid = some task) :
    cpmLS (taskDict tasks) tasks pe rank N tid =
      qsub (depsMinLS tid (cpmLS (taskDict tasks) tasks pe rank N) tasks pe)
        task.duration := by
  have hrank : rank tid < N := by
    obtain ⟨t, ht, rfl⟩ := List.mem_map.mp htid
    exact hN t ht
  obtain ⟨k, hk⟩ : ∃ k, N - rank tid = k + 1 := ⟨N - rank tid - 1, by omega⟩
  unfold cpmLS
  rw [hk]
  simp only [mLS, htask]
  congr 1
  refine depsMinLS_congr tid _ _ tasks ?_ pe
  intro ot hot hdep
  have hotrank : rank tid < rank ot.id := hwf ot hot tid hdep htid
  exact mLS_stable tasks pe rank N hwf hN k ot.id
    (List.mem_map_of_mem TaskInput.id hot) (by omega)

theorem depsMaxEF_ge_acc (td : String → Option TaskInput) (g : String → ℚ) :
    ∀ (ds : List String) (m : ℚ), m ≤ depsMaxEF td g ds m := by
  intro ds
  induction ds with
  | nil => exact fun m => le_refl m
  | cons d ds ih =>
    intro m
    by_cases hd : (td d).isSome = true
    · simp only [depsMaxEF, if_pos hd]
      refine le_trans ?_ (ih (qmax m (g d)))
      rw [qmax_eq]
      exact le_max_left _ _
    · simp only [depsMaxEF, if_neg hd]
      exact ih m

theorem depsMaxEF_ge_elem (td : String → Option TaskInput) (g : String → ℚ) :
    ∀ (ds : List String) (m : ℚ) (d : String), d ∈ ds → (td d).isSome = true →
      g d ≤ depsMaxEF td g ds m := by
  intro ds
  induction ds with
  | nil => intro m d h; cases h
  | cons d' ds ih =>
    intro m d hmem hd
    rcases List.mem_cons.mp hmem with rfl | hmem'
    · simp only [depsMaxEF, if_pos hd]
      refine le_trans ?_ (depsMaxEF_ge_acc td g ds (qmax m (g d)))
      rw [qmax_eq]
      exact le_max_right _ _
    · by_cases hd' : (td d').isSome = true
      · simp only [depsMaxEF, if_pos hd']
        exact ih _ d hmem' hd
      · simp only [depsMaxEF, if_neg hd']
        exact ih _ d hmem' hd

theorem depsMinLS_ge (tid : String) (g : String → ℚ) (x : ℚ) :
    ∀ (ots : List TaskInput) (m : ℚ), x ≤ m →
      (∀ ot ∈ ots, tid ∈ ot.dependencies → x ≤ g ot.id) →
      x ≤ depsMinLS tid g ots m := by
  intro ots
  induction ots with
  | nil => exact fun m hm _ => hm
  | cons ot ots ih =>
    intro m hm hall
    by_cases hd : tid ∈ ot.dependencies
    · simp only [depsMinLS, if_pos hd]
      refine ih _ ?_ (fun u hu hdep => hall u (List.mem_cons_of_mem _ hu) hdep)
      rw [qmin_eq]
      exact le_min hm (hall ot (List.mem_cons_self _ _) hd)
    · simp only [depsMinLS, if_neg hd]
      exact ih _ hm (fun u hu hdep => hall u (List.mem_cons_of_mem _ hu) hdep)

theorem depsMinLS_le_acc (tid : String) (g : String → ℚ) :
    ∀ (ots : List TaskInput) (m : ℚ), depsMinLS tid g ots m ≤ m := by
  intro ots
  induction ots with
  | nil => exact fun m => le_refl m
  | cons ot ots ih =>
    intro m
    by_cases hd : tid ∈ ot.dependencies
    · simp only [depsMinLS, if_pos hd]
      refine le_trans (ih _) ?_
      rw [qmin_eq]
      exact min_le_left _ _
    · simp only [depsMinLS, if_neg hd]
      exact ih m

theorem depsMinLS_const (tid : String) (g : String → ℚ) :
    ∀ (ots : List TaskInput) (m : ℚ), (∀ ot ∈ ots, tid ∉ ot.dependencies) →
      depsMinLS tid g ots m = m := by
  intro ots
  induction ots with
  | nil => exact fun m _ => rfl
  | cons ot ots ih =>
    intro m hall
    simp only [depsMinLS, if_neg (hall ot (List.mem_cons_self _ _))]
    exact ih m (fun u hu => hall u (List.mem_cons_of_mem _ hu))

theorem cpmES_le_cpmLS (tasks : List TaskInput) (pe : ℚ) (rank : String → ℕ)
    (N : ℕ) (hnd : (taskIds tasks).Nodup) (hwf : WfRank tasks rank)
    (hN : ∀ t ∈ tasks, rank t.id < N)
    (hpe : ∀ tid ∈ taskIds tasks, cpmEF (taskDict tasks) rank tid ≤ pe) :
    ∀ k tid, tid ∈ taskIds tasks → N - rank tid ≤ k →
      cpmES (taskDict tasks) rank tid ≤
        cpmLS (taskDict tasks) tasks pe rank N tid := by
  intro k
  induction k with
  | zero =>
    intro tid htid hle
    have hrank : rank tid < N := by
      obtain ⟨t, ht, rfl⟩ := List.mem_map.mp htid
      exact hN t ht
    omega
  | succ k ih =>
    intro tid htid _
    have hsome : (taskDict tasks tid).isSome = true :=
      (taskDict_isSome_iff tasks tid).mpr htid
    obtain ⟨task, htask⟩ := Option.isSome_iff_exists.mp hsome
    have hunf := cpmLS_unfold tasks pe rank N hwf hN tid task htid htask
    have hef := cpmEF_unfold (taskDict tasks) rank (wfRank_td tasks rank hwf)
      tid task htask
    have hmain : cpmEF (taskDict tasks) rank tid ≤
        depsMinLS tid (cpmLS (taskDict tasks) tasks pe rank N) tasks pe := by
      refine depsMinLS_ge tid _ _ tasks pe (hpe tid htid) ?_
      intro ot hot hdep
      have hotmem : ot.id ∈ taskIds tasks := List.mem_map_of_mem TaskInput.id hot
      have hotrank : rank tid < rank ot.id := hwf ot hot tid hdep htid
      have hrank : rank tid < N := by
        obtain ⟨t, ht, rfl⟩ := List.mem_map.mp htid
        exact hN t ht
      have hih : cpmES (taskDict tasks) rank ot.id ≤
          cpmLS (taskDict tasks) tasks pe rank N ot.id :=
        ih ot.id hotmem (by omega)
      refine le_trans ?_ hih
      have hself : taskDict tasks ot.id = some ot := taskDict_self tasks hnd ot hot
      show cpmEF (taskDict tasks) rank tid ≤ cpmES (taskDict tasks) rank ot.id
      unfold cpmES
      rw [hself]
      exact depsMaxEF_ge_elem (taskDict tasks) _ ot.dependencies 0 tid hdep hsome
    rw [hunf]
    have h1 : cpmES (taskDict tasks) rank tid =
        cpmEF (taskDict tasks) rank tid - task.duration := by
      rw [hef, qadd_eq]
      ring
    rw [h1, qsub_eq]
    have := hmain
    linarith

/-- The `earliest_start` dict only holds correct CPM values. -/
def SoundES (td : String → Option TaskInput) (rank : String → ℕ)
    (es : List (String × ℚ)) : Prop :=
  ∀ tid q, pyGet es tid = some q → q = cpmES td rank tid

/-- The `earliest_finish` dict only holds correct CPM values. -/
def SoundEF (td : String → Option TaskInput) (rank : String → ℕ)
    (ef : List (String × ℚ)) : Prop :=
  ∀ tid q, pyGet ef tid = some q → q = cpmEF td rank tid

/-- Every visited id of rank below `B` has a memoized earliest finish. -/
def PresEF (rank : String → ℕ) (vis : List String)
    (ef : List (String × ℚ)) (B : ℕ) : Prop :=
  ∀ i ∈ vis, rank i < B → (pyGet ef i).isSome = true

theorem calcEDeps_sound (td : String → Option TaskInput) (rank : String → ℕ)
    (f : ℕ) (B : ℕ)
    (IH : ∀ tid s r s', calculate_earliest_times td f tid s = some (r, s') →
      (td tid).isSome = true →
      SoundES td rank s.es → SoundEF td rank s.ef →
      PresEF rank s.visited s.ef (rank tid + 1) →
      r = cpmEF td rank tid ∧ SoundES td rank s'.es ∧ SoundEF td rank s'.ef ∧
      (∀ i, (pyGet s.es i).isSome = true → (pyGet s'.es i).isSome = true) ∧
      (∀ i, (pyGet s.ef i).isSome = true → (pyGet s'.ef i).isSome = true) ∧
      (∀ i ∈ s'.visited, i ∈ s.visited ∨ rank i < rank tid + 1) ∧
      PresEF rank s'.visited s'.ef (rank tid + 1) ∧
      (tid ∉ s.visited → (pyGet s'.es tid).isSome = true ∧
        (pyGet s'.ef tid).isSome = true)) :
    ∀ ds m s r s',
      calcEDeps td (calculate_earliest_times td f) ds m s = some (r, s') →
      (∀ d ∈ ds, (td d).isSome = true → rank d < B) →
      SoundES td rank s.es → SoundEF td rank s.ef →
      PresEF rank s.visited s.ef B →
      r = depsMaxEF td (cpmEF td rank) ds m ∧
      SoundES td rank s'.es ∧ SoundEF td rank s'.ef ∧
      (∀ i, (pyGet s.es i).isSome = true → (pyGet s'.es i).isSome = true) ∧
      (∀ i, (pyGet s.ef i).isSome = true → (pyGet s'.ef i).isSome = true) ∧
      (∀ i ∈ s'.visited, i ∈ s.visited ∨ rank i < B) ∧
      PresEF rank s'.visited s'.ef B := by
  intro ds
  induction ds with
  | nil =>
    intro m s r s' h _ hses hsef hpres
    simp only [calcEDeps, Option.some.injEq, Prod.mk.injEq] at h
    obtain ⟨rfl, rfl⟩ := h
    exact ⟨rfl, hses, hsef, fun _ h => h, fun _ h => h,
      fun i hi => Or.inl hi, hpres⟩
  | cons d ds ih =>
    intro m s r s' h hbound hses hsef hpres
    by_cases hd : (td d).isSome = true
    · rw [calcEDeps, if_pos hd] at h
      cases hrec : calculate_earliest_times td f d s with
      | none => rw [hrec] at h; cases h
      | some p =>
        obtain ⟨r₁, s₁⟩ := p
        rw [hrec] at h
        simp only [] at h
        have hdB : rank d < B := hbound d (List.mem_cons_self _ _) hd
        obtain ⟨hr₁, hses₁, hsef₁, hmes₁, hmef₁, hvis₁, hpres₁, -⟩ :=
          IH d s r₁ s₁ hrec hd hses hsef
            (fun i hi hri => hpres i hi (by omega))
        obtain ⟨hr₂, hses₂, hsef₂, hmes₂, hmef₂, hvis₂, hpres₂⟩ :=
          ih (qmax m r₁) s₁ r s' h
            (fun x hx => hbound x (List.mem_cons_of_mem _ hx))
            hses₁ hsef₁
            (fun i hi hri => by
              rcases hvis₁ i hi with hold | hnew
              · exact hmef₁ i (hpres i hold hri)
              · exact hpres₁ i hi hnew)
        refine ⟨?_, hses₂, hsef₂, fun i hi => hmes₂ i (hmes₁ i hi),
          fun i hi => hmef₂ i (hmef₁ i hi), ?_, hpres₂⟩
        · rw [hr₂, hr₁]
          simp only [depsMaxEF, if_pos hd]
        · intro i hi
          rcases hvis₂ i hi with hi₁ | hnew
          · rcases hvis₁ i hi₁ with hold | hnew'
            · exact Or.inl hold
            · exact Or.inr (by omega)
          · exact Or.inr hnew
    · rw [calcEDeps, if_neg hd] at h
      obtain ⟨hr, hses', hsef', hmes, hmef, hvis, hpres'⟩ :=
        ih m s r s' h (fun x hx => hbound x (List.mem_cons_of_mem _ hx))
          hses hsef hpres
      refine ⟨?_, hses', hsef', hmes, hmef, hvis, hpres'⟩
      rw [hr]
      simp only [depsMaxEF, if_neg hd]

theorem calcE_sound (td : String → Option TaskInput) (rank : String → ℕ)
    (hw : WfTd td rank) :
    ∀ f tid s r s', calculate_earliest_times td f tid s = some (r, s') →
      (td tid).isSome = true →
      SoundES td rank s.es → SoundEF td rank s.ef →
      PresEF rank s.visited s.ef (rank tid + 1) →
      r = cpmEF td rank tid ∧ SoundES td rank s'.es ∧ SoundEF td rank s'.ef ∧
      (∀ i, (pyGet s.es i).isSome = true → (pyGet s'.es i).isSome = true) ∧
      (∀ i, (pyGet s.ef i).isSome = true → (pyGet s'.ef i).isSome = true) ∧
      (∀ i ∈ s'.visited, i ∈ s.visited ∨ rank i < rank tid + 1) ∧
      PresEF rank s'.visited s'.ef (rank tid + 1) ∧
      (tid ∉ s.visited → (pyGet s'.es tid).isSome = true ∧
        (pyGet s'.ef tid).isSome = true) := by
  intro f
  induction f with
  | zero => intro tid s r s' h; cases h
  | succ f ihf =>
    intro tid s r s' h htid hses hsef hpres
    by_cases hv : tid ∈ s.visited
    · rw [calculate_earliest_times, if_pos hv] at h
      simp only [Option.some.injEq, Prod.mk.injEq] at h
      obtain ⟨rfl, rfl⟩ := h
      have hpr : (pyGet s.ef tid).isSome = true := hpres tid hv (by omega)
      obtain ⟨v, hval⟩ := Option.isSome_iff_exists.mp hpr
      refine ⟨?_, hses, hsef, fun _ h => h, fun _ h => h,
        fun i hi => Or.inl hi, hpres, fun hnv => absurd hv hnv⟩
      rw [pyGetD, hval, Option.getD_some]
      exact hsef tid v hval
    · rw [calculate_earliest_times, if_neg hv] at h
      cases htask : td tid with
      | none => rw [htask] at h; cases h
      | some task =>
        rw [htask] at h
        simp only [] at h
        cases hdeps : calcEDeps td (calculate_earliest_times td f)
            task.dependencies 0 ⟨tid :: s.visited, s.es, s.ef⟩ with
        | none => rw [hdeps] at h; cases h
        | some p =>
          obtain ⟨m, s₁⟩ := p
          rw [hdeps] at h
          simp only [Option.some.injEq, Prod.mk.injEq] at h
          obtain ⟨rfl, rfl⟩ := h
          obtain ⟨hm, hses₁, hsef₁, hmes₁, hmef₁, hvis₁, hpres₁⟩ :=
            calcEDeps_sound td rank f (rank tid) ihf task.dependencies 0
              ⟨tid :: s.visited, s.es, s.ef⟩ m s₁ hdeps
              (fun d hd hds => hw tid task htask d hd hds)
              hses hsef
              (fun i hi hri => by
                rcases List.mem_cons.mp hi with rfl | hold
                · omega
                · exact hpres i hold (by omega))
          have hmval : m = cpmES td rank tid := by
            rw [hm]
            unfold cpmES
            rw [htask]
          have hrval : qadd m task.duration = cpmEF td rank tid := by
            rw [hmval, (cpmEF_unfold td rank hw tid task htask)]
          refine ⟨hrval, ?_, ?_, ?_, ?_, ?_, ?_, ?_⟩
          · intro i q hq
            by_cases hit : i = tid
            · subst hit
              rw [pyGet_pySet_self] at hq
              rcases Option.some.inj hq with rfl
              exact hmval.symm ▸ rfl
            · rw [pyGet_pySet_ne _ _ _ _ hit] at hq
              exact hses₁ i q hq
          · intro i q hq
            by_cases hit : i = tid
            · subst hit
              rw [pyGet_pySet_self] at hq
              rcases Option.some.inj hq with rfl
              exact hrval
            · rw [pyGet_pySet_ne _ _ _ _ hit] at hq
              exact hsef₁ i q hq
          · intro i hi
            exact (pyGet_pySet_isSome_iff s₁.es tid i m).mpr
              (Or.inr (hmes₁ i hi))
          · intro i hi
            exact (pyGet_pySet_isSome_iff s₁.ef tid i _).mpr
              (Or.inr (hmef₁ i hi))
          · intro i hi
            rcases hvis₁ i hi with hold | hnew
            · rcases List.mem_cons.mp hold with rfl | hold'
              · exact Or.inr (by omega)
              · exact Or.inl hold'
            · exact Or.inr (by omega)
          · intro i hi hri
            by_cases hit : i = tid
            · subst hit
              exact (pyGet_pySet_isSome_iff s₁.ef i i _).mpr (Or.inl rfl)
            · refine (pyGet_pySet_isSome_iff s₁.ef tid i _).mpr (Or.inr ?_)
              rcases hvis₁ i hi with hold | hnew
              · rcases List.mem_cons.mp hold with rfl | hold'
                · exact absurd rfl hit
                · exact hmef₁ i (hpres i hold' hri)
              · exact hpres₁ i hi hnew
          · intro _
            exact ⟨(pyGet_pySet_isSome_iff s₁.es tid tid m).mpr (Or.inl rfl),
              (pyGet_pySet_isSome_iff s₁.ef tid tid _).mpr (Or.inl rfl)⟩

theorem runForward_sound (td : String → Option TaskInput) (rank : String → ℕ)
    (hw : WfTd td rank) (fuel : ℕ) :
    ∀ ts st st', runForward td fuel ts st = some st' →
      (∀ t ∈ ts, (td t.id).isSome = true) →
      SoundES td rank st.1 → SoundEF td rank st.2 →
      SoundES td rank st'.1 ∧ SoundEF td rank st'.2 ∧
      (∀ i, (pyGet st.1 i).isSome = true → (pyGet st'.1 i).isSome = true) ∧
      (∀ i, (pyGet st.2 i).isSome = true → (pyGet st'.2 i).isSome = true) ∧
      (∀ t ∈ ts, (pyGet st'.1 t.id).isSome = true ∧
        (pyGet st'.2 t.id).isSome = true) := by
  intro ts
  induction ts with
  | nil =>
    intro st st' h _ hses hsef
    rcases Option.some.inj h with rfl
    exact ⟨hses, hsef, fun _ h => h, fun _ h => h, fun t ht => absurd ht (by simp)⟩
  | cons t ts ih =>
    intro st st' h hmem hses hsef
    rw [runForward] at h
    cases hc : calculate_earliest_times td fuel t.id ⟨[], st.1, st.2⟩ with
    | none => rw [hc] at h; cases h
    | some p =>
      obtain ⟨r, s₁⟩ := p
      rw [hc] at h
      simp only [] at h
      obtain ⟨-, hses₁, hsef₁, hmes₁, hmef₁, -, -, hpr⟩ :=
        calcE_sound td rank hw fuel t.id ⟨[], st.1, st.2⟩ r s₁ hc
          (hmem t (List.mem_cons_self _ _)) hses hsef
          (fun i hi => absurd hi (by simp))
      obtain ⟨hses', hsef', hmes', hmef', hall⟩ :=
        ih (s₁.es, s₁.ef) st' h
          (fun u hu => hmem u (List.mem_cons_of_mem _ hu)) hses₁ hsef₁
      obtain ⟨hps, hpf⟩ := hpr (by simp)
      refine ⟨hses', hsef', fun i hi => hmes' i (hmes₁ i hi),
        fun i hi => hmef' i (hmef₁ i hi), ?_⟩
      intro u hu
      rcases List.mem_cons.mp hu with rfl | hu'
      · exact ⟨hmes' u.id hps, hmef' u.id hpf⟩
      · exact hall u hu'

/-- Keys written by the forward pass name existing tasks. -/
theorem calcE_keys (td : String → Option TaskInput) :
    ∀ f tid s r s', calculate_earliest_times td f tid s = some (r, s') →
      ∀ i, (pyGet s'.ef i).isSome = true →
        (pyGet s.ef i).isSome = true ∨ (td i).isSome = true := by
  intro f
  induction f with
  | zero => intro tid s r s' h; cases h
  | succ f ihf =>
    have hdeps : ∀ (ds : List String) m s r s',
        calcEDeps td (calculate_earliest_times td f) ds m s = some (r, s') →
        ∀ i, (pyGet s'.ef i).isSome = true →
          (pyGet s.ef i).isSome = true ∨ (td i).isSome = true := by
      intro ds
      induction ds with
      | nil =>
        intro m s r s' h i hi
        simp only [calcEDeps, Option.some.injEq, Prod.mk.injEq] at h
        obtain ⟨rfl, rfl⟩ := h
        exact Or.inl hi
      | cons d ds ih =>
        intro m s r s' h i hi
        by_cases hd : (td d).isSome = true
        · rw [calcEDeps, if_pos hd] at h
          cases hrec : calculate_earliest_times td f d s with
          | none => rw [hrec] at h; cases h
          | some p =>
            obtain ⟨r₁, s₁⟩ := p
            rw [hrec] at h
            simp only [] at h
            rcases ih _ _ _ _ h i hi with h₁ | h₁
            · exact ihf d s r₁ s₁ hrec i h₁
            · exact Or.inr h₁
        · rw [calcEDeps, if_neg hd] at h
          exact ih _ _ _ _ h i hi
    intro tid s r s' h i hi
    by_cases hv : tid ∈ s.visited
    · rw [calculate_earliest_times, if_pos hv] at h
      simp only [Option.some.injEq, Prod.mk.injEq] at h
      obtain ⟨rfl, rfl⟩ := h
      exact Or.inl hi
    · rw [calculate_earliest_times, if_neg hv] at h
      cases htask : td tid with
      | none => rw [htask] at h; cases h
      | some task =>
        rw [htask] at h
        simp only [] at h
        cases hde : calcEDeps td (calculate_earliest_times td f)
            task.dependencies 0 ⟨tid :: s.visited, s.es, s.ef⟩ with
        | none => rw [hde] at h; cases h
        | some p =>
          obtain ⟨m, s₁⟩ := p
          rw [hde] at h
          simp only [Option.some.injEq, Prod.mk.injEq] at h
          obtain ⟨rfl, rfl⟩ := h
          simp only [] at hi
          rcases (pyGet_pySet_isSome_iff s₁.ef tid i _).mp hi with rfl | hi'
          · exact Or.inr (by rw [htask]; rfl)
          · exact hdeps task.dependencies 0 ⟨tid :: s.visited, s.es, s.ef⟩
              m s₁ hde i hi'

theorem runForward_keys (td : String → Option TaskInput) (fuel : ℕ) :
    ∀ ts st st', runForward td fuel ts st = some st' →
      ∀ i, (pyGet st'.2 i).isSome = true →
        (pyGet st.2 i).isSome = true ∨ (td i).isSome = true := by
  intro ts
  induction ts with
  | nil =>
    intro st st' h i hi
    rcases Option.some.inj h with rfl
    exact Or.inl hi
  | cons t ts ih =>
    intro st st' h i hi
    rw [runForward] at h
    cases hc : calculate_earliest_times td fuel t.id ⟨[], st.1, st.2⟩ with
    | none => rw [hc] at h; cases h
    | some p =>
      obtain ⟨r, s₁⟩ := p
      rw [hc] at h
      simp only [] at h
      rcases ih _ _ h i hi with h₁ | h₁
      · exact calcE_keys td fuel t.id ⟨[], st.1, st.2⟩ r s₁ hc i h₁
      · exact Or.inr h₁

/-- The `latest_start` dict only holds correct CPM values. -/
def SoundLS (tasks : List TaskInput) (pe : ℚ) (rank : String → ℕ) (N : ℕ)
    (ls : List (String × ℚ)) : Prop :=
  ∀ tid q, pyGet ls tid = some q →
    q = cpmLS (taskDict tasks) tasks pe rank N tid

/-- Every visited id of rank at least `b` has a memoized latest start. -/
def PresLS (rank : String → ℕ) (vis : List String)
    (ls : List (String × ℚ)) (b : ℕ) : Prop :=
  ∀ i ∈ vis, b ≤ rank i → (pyGet ls i).isSome = true

theorem calcLDeps_sound (tasks : List TaskInput) (pe : ℚ) (rank : String → ℕ)
    (N : ℕ) (f : ℕ) (tid : String) (b : ℕ)
    (IH : ∀ tid' s r s',
      calculate_latest_times (taskDict tasks) tasks pe f tid' s = some (r, s') →
      tid' ∈ taskIds tasks →
      SoundLS tasks pe rank N s.ls →
      PresLS rank s.visited s.ls (rank tid') →
      r = cpmLS (taskDict tasks) tasks pe rank N tid' ∧
      SoundLS tasks pe rank N s'.ls ∧
      (∀ i, (pyGet s.ls i).isSome = true → (pyGet s'.ls i).isSome = true) ∧
      (∀ i ∈ s'.visited, i ∈ s.visited ∨ rank tid' ≤ rank i) ∧
      PresLS rank s'.visited s'.ls (rank tid') ∧
      (tid' ∉ s.visited → (pyGet s'.ls tid').isSome = true)) :
    ∀ ots m s r s',
      calcLDeps tid (calculate_latest_times (taskDict tasks) tasks pe f)
        ots m s = some (r, s') →
      (∀ ot ∈ ots, ot ∈ tasks) →
      (∀ ot ∈ ots, tid ∈ ot.dependencies → b < rank ot.id) →
      SoundLS tasks pe rank N s.ls →
      PresLS rank s.visited s.ls (b + 1) →
      r = depsMinLS tid (cpmLS (taskDict tasks) tasks pe rank N) ots m ∧
      SoundLS tasks pe rank N s'.ls ∧
      (∀ i, (pyGet s.ls i).isSome = true → (pyGet s'.ls i).isSome = true) ∧
      (∀ i ∈ s'.visited, i ∈ s.visited ∨ b < rank i) ∧
      PresLS rank s'.visited s'.ls (b + 1) := by
  intro ots
  induction ots with
  | nil =>
    intro m s r s' h _ _ hsls hpres
    simp only [calcLDeps, Option.some.injEq, Prod.mk.injEq] at h
    obtain ⟨rfl, rfl⟩ := h
    exact ⟨rfl, hsls, fun _ h => h, fun i hi => Or.inl hi, hpres⟩
  | cons ot ots ih =>
    intro m s r s' h hmem hbound hsls hpres
    by_cases hd : tid ∈ ot.dependencies
    · rw [calcLDeps, if_pos hd] at h
      cases hrec : calculate_latest_times (taskDict tasks) tasks pe f ot.id s with
      | none => rw [hrec] at h; cases h
      | some p =>
        obtain ⟨r₁, s₁⟩ := p
        rw [hrec] at h
        simp only [] at h
        have hob : b < rank ot.id := hbound ot (List.mem_cons_self _ _) hd
        obtain ⟨hr₁, hsls₁, hmls₁, hvis₁, hpres₁, -⟩ :=
          IH ot.id s r₁ s₁ hrec
            (List.mem_map_of_mem TaskInput.id (hmem ot (List.mem_cons_self _ _)))
            hsls
            (fun i hi hri => hpres i hi (by omega))
        obtain ⟨hr₂, hsls₂, hmls₂, hvis₂, hpres₂⟩ :=
          ih (qmin m r₁) s₁ r s' h
            (fun x hx => hmem x (List.mem_cons_of_mem _ hx))
            (fun x hx hxd => hbound x (List.mem_cons_of_mem _ hx) hxd)
            hsls₁
            (fun i hi hri => by
              rcases hvis₁ i hi with hold | hnew
              · exact hmls₁ i (hpres i hold hri)
              · exact hpres₁ i hi hnew)
        refine ⟨?_, hsls₂, fun i hi => hmls₂ i (hmls₁ i hi), ?_, hpres₂⟩
        · rw [hr₂, hr₁]
          simp only [depsMinLS, if_pos hd]
        · intro i hi
          rcases hvis₂ i hi with hi₁ | hnew
          · rcases hvis₁ i hi₁ with hold | hnew'
            · exact Or.inl hold
            · exact Or.inr (by omega)
          · exact Or.inr hnew
    · rw [calcLDeps, if_neg hd] at h
      obtain ⟨hr, hsls', hmls, hvis, hpres'⟩ :=
        ih m s r s' h (fun x hx => hmem x (List.mem_cons_of_mem _ hx))
          (fun x hx hxd => hbound x (List.mem_cons_of_mem _ hx) hxd) hsls hpres
      refine ⟨?_, hsls', hmls, hvis, hpres'⟩
      rw [hr]
      simp only [depsMinLS, if_neg hd]

theorem calcL_sound (tasks : List TaskInput) (pe : ℚ) (rank : String → ℕ)
    (N : ℕ) (hwf : WfRank tasks rank) (hN : ∀ t ∈ tasks, rank t.id < N) :
    ∀ f tid s r s',
      calculate_latest_times (taskDict tasks) tasks pe f tid s = some (r, s') →
      tid ∈ taskIds tasks →
      SoundLS tasks pe rank N s.ls →
      PresLS rank s.visited s.ls (rank tid) →
      r = cpmLS (taskDict tasks) tasks pe rank N tid ∧
      SoundLS tasks pe rank N s'.ls ∧
      (∀ i, (pyGet s.ls i).isSome = true → (pyGet s'.ls i).isSome = true) ∧
      (∀ i ∈ s'.visited, i ∈ s.visited ∨ rank tid ≤ rank i) ∧
      PresLS rank s'.visited s'.ls (rank tid) ∧
      (tid ∉ s.visited → (pyGet s'.ls tid).isSome = true) := by
  intro f
  induction f with
  | zero => intro tid s r s' h; cases h
  | succ f ihf =>
    intro tid s r s' h htid hsls hpres
    by_cases hv : tid ∈ s.visited
    · rw [calculate_latest_times, if_pos hv] at h
      simp only [Option.some.injEq, Prod.mk.injEq] at h
      obtain ⟨rfl, rfl⟩ := h
      have hpr : (pyGet s.ls tid).isSome = true := hpres tid hv (le_refl _)
      obtain ⟨v, hval⟩ := Option.isSome_iff_exists.mp hpr
      refine ⟨?_, hsls, fun _ h => h, fun i hi => Or.inl hi, hpres,
        fun hnv => absurd hv hnv⟩
      rw [pyGetD, hval, Option.getD_some]
      exact hsls tid v hval
    · rw [calculate_latest_times, if_neg hv] at h
      cases htask : taskDict tasks tid with
      | none =>
        rw [htask] at h
        cases h
      | some task =>
        rw [htask] at h
        simp only [] at h
        cases hdeps : calcLDeps tid
            (calculate_latest_times (taskDict tasks) tasks pe f) tasks pe
            ⟨tid :: s.visited, s.ls, s.lf⟩ with
        | none => rw [hdeps] at h; cases h
        | some p =>
          obtain ⟨m, s₁⟩ := p
          rw [hdeps] at h
          simp only [Option.some.injEq, Prod.mk.injEq] at h
          obtain ⟨rfl, rfl⟩ := h
          obtain ⟨hm, hsls₁, hmls₁, hvis₁, hpres₁⟩ :=
            calcLDeps_sound tasks pe rank N f tid (rank tid) ihf tasks pe
              ⟨tid :: s.visited, s.ls, s.lf⟩ m s₁ hdeps
              (fun _ hx => hx)
              (fun ot hot hdep => hwf ot hot tid hdep htid)
              hsls
              (fun i hi hri => by
                rcases List.mem_cons.mp hi with rfl | hold
                · omega
                · exact hpres i hold (by omega))
          have hrval : qsub m task.duration =
              cpmLS (taskDict tasks) tasks pe rank N tid := by
            rw [hm, ← cpmLS_unfold tasks pe rank N hwf hN tid task htid htask]
          refine ⟨hrval, ?_, ?_, ?_, ?_, ?_⟩
          · intro i q hq
            by_cases hit : i = tid
            · subst hit
              rw [pyGet_pySet_self] at hq
              rcases Option.some.inj hq with rfl
              exact hrval
            · rw [pyGet_pySet_ne _ _ _ _ hit] at hq
              exact hsls₁ i q hq
          · intro i hi
            exact (pyGet_pySet_isSome_iff s₁.ls tid i _).mpr
              (Or.inr (hmls₁ i hi))
          · intro i hi
            rcases hvis₁ i hi with hold | hnew
            · rcases List.mem_cons.mp hold with rfl | hold'
              · exact Or.inr (le_refl _)
              · exact Or.inl hold'
            · exact Or.inr (by omega)
          · intro i hi hri
            by_cases hit : i = tid
            · subst hit
              exact (pyGet_pySet_isSome_iff s₁.ls i i _).mpr (Or.inl rfl)
            · refine (pyGet_pySet_isSome_iff s₁.ls tid i _).mpr (Or.inr ?_)
              rcases hvis₁ i hi with hold | hnew
              · rcases List.mem_cons.mp hold with rfl | hold'
                · exact absurd rfl hit
                · exact hmls₁ i (hpres i hold' hri)
              · exact hpres₁ i hi hnew
          · intro _
            exact (pyGet_pySet_isSome_iff s₁.ls tid tid _).mpr (Or.inl rfl)

theorem runBackward_sound (tasks : List TaskInput) (pe : ℚ)
    (rank : String → ℕ) (N : ℕ) (hwf : WfRank tasks rank)
    (hN : ∀ t ∈ tasks, rank t.id < N) (fuel : ℕ) :
    ∀ ts st st',
      runBackward (taskDict tasks) tasks pe fuel ts st = some st' →
      (∀ t ∈ ts, t ∈ tasks) →
      SoundLS tasks pe rank N st.1 →
      SoundLS tasks pe rank N st'.1 ∧
      (∀ i, (pyGet st.1 i).isSome = true → (pyGet st'.1 i).isSome = true) ∧
      (∀ t ∈ ts, (pyGet st'.1 t.id).isSome = true) := by
  intro ts
  induction ts with
  | nil =>
    intro st st' h _ hsls
    rcases Option.some.inj h with rfl
    exact ⟨hsls, fun _ h => h, fun t ht => absurd ht (by simp)⟩
  | cons t ts ih =>
    intro st st' h hmem hsls
    rw [runBackward] at h
    cases hc : calculate_latest_times (taskDict tasks) tasks pe fuel t.id
        ⟨[], st.1, st.2⟩ with
    | none => rw [hc] at h; cases h
    | some p =>
      obtain ⟨r, s₁⟩ := p
      rw [hc] at h
      simp only [] at h
      obtain ⟨-, hsls₁, hmls₁, hvis₁, hpres₁, hwrote⟩ :=
        calcL_sound tasks pe rank N hwf hN fuel t.id ⟨[], st.1, st.2⟩ r s₁ hc
          (List.mem_map_of_mem TaskInput.id (hmem t (List.mem_cons_self _ _)))
          hsls (fun i hi => absurd hi (by simp))
      obtain ⟨hsls', hmls', hall⟩ :=
        ih (s₁.ls, s₁.lf) st' h
          (fun u hu => hmem u (List.mem_cons_of_mem _ hu)) hsls₁
      have hpt : (pyGet s₁.ls t.id).isSome = true := hwrote (by simp)
      refine ⟨hsls', fun i hi => hmls' i (hmls₁ i hi), ?_⟩
      intro u hu
      rcases List.mem_cons.mp hu with rfl | hu'
      · exact hmls' u.id hpt
      · exact hall u hu'

theorem forwardPass_sound (tasks : List TaskInput) (rank : String → ℕ)
    (hwf : WfRank tasks rank) (es ef : List (String × ℚ))
    (hf : forwardPass tasks = some (es, ef)) :
    SoundES (taskDict tasks) rank es ∧ SoundEF (taskDict tasks) rank ef ∧
    (∀ t ∈ tasks, (pyGet es t.id).isSome = true ∧
      (pyGet ef t.id).isSome = true) ∧
    (∀ i, (pyGet ef i).isSome = true → i ∈ taskIds tasks) := by
  have hmem : ∀ t ∈ tasks, (taskDict tasks t.id).isSome = true := by
    intro t ht
    rw [taskDict_isSome_iff]
    exact List.mem_map_of_mem TaskInput.id ht
  obtain ⟨hses, hsef, -, -, hall⟩ :=
    runForward_sound (taskDict tasks) rank (wfRank_td tasks rank hwf)
      (tasks.length + 1) tasks ([], []) (es, ef) hf hmem
      (fun tid q hq => by simp [pyGet] at hq)
      (fun tid q hq => by simp [pyGet] at hq)
  refine ⟨hses, hsef, hall, ?_⟩
  intro i hi
  rcases runForward_keys (taskDict tasks) (tasks.length + 1) tasks ([], [])
      (es, ef) hf i hi with h | h
  · simp [pyGet] at h
  · exact (taskDict_isSome_iff tasks i).mp h

theorem backwardPass_sound (tasks : List TaskInput) (pe : ℚ)
    (rank : String → ℕ) (N : ℕ) (hwf : WfRank tasks rank)
    (hN : ∀ t ∈ tasks, rank t.id < N) (ls lf : List (String × ℚ))
    (hb : backwardPass tasks pe = some (ls, lf)) :
    SoundLS tasks pe rank N ls ∧
    (∀ t ∈ tasks, (pyGet ls t.id).isSome = true) := by
  obtain ⟨hsls, -, hall⟩ :=
    runBackward_sound tasks pe rank N hwf hN (tasks.length + 1) tasks
      ([], []) (ls, lf) hb (fun _ h => h)
      (fun tid q hq => by simp [pyGet] at hq)
  exact ⟨hsls, hall⟩

theorem le_foldr_max : ∀ (l : List ℕ) (x : ℕ), x ∈ l → x ≤ l.foldr max 0 := by
  intro l
  induction l with
  | nil => intro x h; cases h
  | cons y ys ih =>
    intro x h
    rcases List.mem_cons.mp h with rfl | h'
    · exact le_max_left _ _
    · exact le_trans (ih x h') (le_max_right _ _)

theorem criticalTasks_mem_iff (tasks : List TaskInput)
    (es ls : List (String × ℚ)) (hnd : (taskIds tasks).Nodup)
    (t : TaskInput) (ht : t ∈ tasks) :
    t.id ∈ criticalTasks tasks es ls ↔
      qabs (qsub (pyGetD es t.id 0) (pyGetD ls t.id 0)) < mkRat 1 1000 := by
  unfold criticalTasks
  constructor
  · intro h
    obtain ⟨u, hu, hid⟩ := List.mem_map.mp h
    obtain ⟨humem, hpred⟩ := List.mem_filter.mp hu
    have : u = t := List.inj_on_of_nodup_map hnd humem ht hid
    subst this
    exact of_decide_eq_true hpred
  · intro h
    refine List.mem_map_of_mem TaskInput.id (List.mem_filter.mpr ⟨ht, ?_⟩)
    exact decide_eq_true h

theorem mkRat_one_thousandth : (mkRat 1 1000 : ℚ) = 1 / 1000 := by
  rw [Rat.mkRat_eq_divInt, Rat.divInt_eq_div]
  norm_num

/-- C6: on every acyclic task set (witnessed by a topological rank) with
unique task ids, the forward and backward passes yield
`earliest_start ≤ latest_start` for every task — hence
`float = latest_start − earliest_start ≥ 0` — and the computed critical
path contains exactly the tasks whose `|earliest_start − latest_start|`
is below the `1e-3` tolerance. -/
theorem c6_earliest_le_latest_and_critical_tolerance
    (tasks : List TaskInput) (rank : String → ℕ)
    (hnd : (taskIds tasks).Nodup) (hwf : WfRank tasks rank)
    (es ef ls lf : List (String × ℚ))
    (hf : forwardPass tasks = some (es, ef))
    (hb : backwardPass tasks (pyMaxValues ef) = some (ls, lf)) :
    ∀ t ∈ tasks,
      pyGetD es t.id 0 ≤ pyGetD ls t.id 0 ∧
      0 ≤ pyGetD ls t.id 0 - pyGetD es t.id 0 ∧
      (t.id ∈ criticalTasks tasks es ls ↔
        |pyGetD es t.id 0 - pyGetD ls t.id 0| < 1 / 1000) := by
  obtain ⟨hses, hsef, hpresent, hkeys⟩ := forwardPass_sound tasks rank hwf es ef hf
  set N : ℕ := (tasks.map (fun t => rank t.id)).foldr max 0 + 1 with hNdef
  have hN : ∀ t ∈ tasks, rank t.id < N := by
    intro t ht
    have := le_foldr_max (tasks.map (fun t => rank t.id)) (rank t.id)
      (List.mem_map_of_mem _ ht)
    omega
  obtain ⟨hsls, hlspresent⟩ := backwardPass_sound tasks (pyMaxValues ef) rank N
    hwf hN ls lf hb
  have hpe : ∀ tid ∈ taskIds tasks,
      cpmEF (taskDict tasks) rank tid ≤ pyMaxValues ef := by
    intro tid htid
    obtain ⟨t, ht, rfl⟩ := List.mem_map.mp htid
    obtain ⟨v, hv⟩ := Option.isSome_iff_exists.mp (hpresent t ht).2
    have hval : v = cpmEF (taskDict tasks) rank t.id := hsef t.id v hv
    rw [← hval]
    exact le_pyMax_of_mem _ v (List.mem_map_of_mem (·.2) (pyGet_mem ef t.id v hv))
  intro t ht
  obtain ⟨ve, hve⟩ := Option.isSome_iff_exists.mp (hpresent t ht).1
  obtain ⟨vl, hvl⟩ := Option.isSome_iff_exists.mp (hlspresent t ht)
  have hesv : pyGetD es t.id 0 = cpmES (taskDict tasks) rank t.id := by
    rw [pyGetD, hve, Option.getD_some]
    exact hses t.id ve hve
  have hlsv : pyGetD ls t.id 0 =
      cpmLS (taskDict tasks) tasks (pyMaxValues ef) rank N t.id := by
    rw [pyGetD, hvl, Option.getD_some]
    exact hsls t.id vl hvl
  have hle : pyGetD es t.id 0 ≤ pyGetD ls t.id 0 := by
    rw [hesv, hlsv]
    exact cpmES_le_cpmLS tasks (pyMaxValues ef) rank N hnd hwf hN hpe N t.id
      (List.mem_map_of_mem TaskInput.id ht) (by omega)
  refine ⟨hle, by linarith, ?_⟩
  rw [criticalTasks_mem_iff tasks es ls hnd t ht, qabs_eq, qsub_eq,
    mkRat_one_thousandth]

/-- A topological rank for `exTasks1` (`B` depends on `A`). -/
def exRank : String → ℕ := fun i => if i = "B" then 1 else 0

/-- Witness for `c6_earliest_le_latest_and_critical_tolerance` on the
acyclic `exTasks1`, instantiated at task `A` (earliest start 0, latest
start 2, non-critical). -/
theorem c6_earliest_le_latest_witness :
    (taskIds exTasks1).Nodup ∧
    WfRank exTasks1 exRank ∧
    forwardPass exTasks1 =
      some ([("D", 0), ("A", 0), ("B", 1), ("C", 0)],
        [("D", 1), ("A", 1), ("B", 2), ("C", 4)]) ∧
    backwardPass exTasks1
        (pyMaxValues [("D", 1), ("A", 1), ("B", 2), ("C", 4)]) =
      some ([("D", 3), ("B", 3), ("A", 2), ("C", 0)],
        [("D", 4), ("B", 4), ("A", 3), ("C", 4)]) ∧
    (pyGetD [("D", 0), ("A", 0), ("B", 1), ("C", 0)] "A" (0 : ℚ) ≤
      pyGetD [("D", 3), ("B", 3), ("A", 2), ("C", 0)] "A" 0 ∧
     0 ≤ pyGetD [("D", 3), ("B", 3), ("A", 2), ("C", 0)] "A" (0 : ℚ) -
      pyGetD [("D", 0), ("A", 0), ("B", 1), ("C", 0)] "A" 0 ∧
     ("A" ∈ criticalTasks exTasks1 [("D", 0), ("A", 0), ("B", 1), ("C", 0)]
        [("D", 3), ("B", 3), ("A", 2), ("C", 0)] ↔
      |pyGetD [("D", 0), ("A", 0), ("B", 1), ("C", 0)] "A" (0 : ℚ) -
        pyGetD [("D", 3), ("B", 3), ("A", 2), ("C", 0)] "A" 0| < 1 / 1000)) :=
  ⟨by decide, by unfold WfRank; decide, rfl, rfl,
    c6_earliest_le_latest_and_critical_tolerance exTasks1 exRank (by decide)
      (by unfold WfRank; decide) _ _ _ _ rfl rfl taskA (by decide)⟩

/-- The forward pass keeps the `earliest_finish` dict's keys distinct
(every write is a dict assignment). -/
theorem calcE_nodup (td : String → Option TaskInput) :
    ∀ f tid s r s', calculate_earliest_times td f tid s = some (r, s') →
      (s.ef.map (·.1)).Nodup → (s'.ef.map (·.1)).Nodup := by
  intro f
  induction f with
  | zero => intro tid s r s' h; cases h
  | succ f ihf =>
    have hdeps : ∀ (ds : List String) m s r s',
        calcEDeps td (calculate_earliest_times td f) ds m s = some (r, s') →
        (s.ef.map (·.1)).Nodup → (s'.ef.map (·.1)).Nodup := by
      intro ds
      induction ds with
      | nil =>
        intro m s r s' h hn
        simp only [calcEDeps, Option.some.injEq, Prod.mk.injEq] at h
        obtain ⟨rfl, rfl⟩ := h
        exact hn
      | cons d ds ih =>
        intro m s r s' h hn
        by_cases hd : (td d).isSome = true
        · rw [calcEDeps, if_pos hd] at h
          cases hrec : calculate_earliest_times td f d s with
          | none => rw [hrec] at h; cases h
          | some p =>
            obtain ⟨r₁, s₁⟩ := p
            rw [hrec] at h
            simp only [] at h
            exact ih _ _ _ _ h (ihf d s r₁ s₁ hrec hn)
        · rw [calcEDeps, if_neg hd] at h
          exact ih _ _ _ _ h hn
    intro tid s r s' h hn
    by_cases hv : tid ∈ s.visited
    · rw [calculate_earliest_times, if_pos hv] at h
      simp only [Option.some.injEq, Prod.mk.injEq] at h
      obtain ⟨rfl, rfl⟩ := h
      exact hn
    · rw [calculate_earliest_times, if_neg hv] at h
      cases htask : td tid with
      | none => rw [htask] at h; cases h
      | some task =>
        rw [htask] at h
        simp only [] at h
        cases hde : calcEDeps td (calculate_earliest_times td f)
            task.dependencies 0 ⟨tid :: s.visited, s.es, s.ef⟩ with
        | none => rw [hde] at h; cases h
        | some p =>
          obtain ⟨m, s₁⟩ := p
          rw [hde] at h
          simp only [Option.some.injEq, Prod.mk.injEq] at h
          obtain ⟨rfl, rfl⟩ := h
          exact pySet_keys_nodup s₁.ef tid _
            (hdeps task.dependencies 0 ⟨tid :: s.visited, s.es, s.ef⟩ m s₁ hde hn)

theorem runForward_nodup (td : String → Option TaskInput) (fuel : ℕ) :
    ∀ ts st st', runForward td fuel ts st = some st' →
      (st.2.map (·.1)).Nodup → (st'.2.map (·.1)).Nodup := by
  intro ts
  induction ts with
  | nil =>
    intro st st' h hn
    rcases Option.some.inj h with rfl
    exact hn
  | cons t ts ih =>
    intro st st' h hn
    rw [runForward] at h
    cases hc : calculate_earliest_times td fuel t.id ⟨[], st.1, st.2⟩ with
    | none => rw [hc] at h; cases h
    | some p =>
      obtain ⟨r, s₁⟩ := p
      rw [hc] at h
      simp only [] at h
      exact ih _ _ h (calcE_nodup td fuel t.id ⟨[], st.1, st.2⟩ r s₁ hc hn)

theorem mem_pyGet_of_nodup {κ α : Type} [DecidableEq κ]
    (d : List (κ × α)) (hn : (d.map (·.1)).Nodup) (k : κ) (v : α)
    (h : (k, v) ∈ d) : pyGet d k = some v := by
  induction d with
  | nil => cases h
  | cons e es ih =>
    rw [List.map_cons, List.nodup_cons] at hn
    rcases List.mem_cons.mp h with rfl | h'
    · simp [pyGet]
    · by_cases he : e.1 = k
      · exfalso
        refine hn.1 ?_
        rw [he]
        exact List.mem_map_of_mem (·.1) h'
      · simp only [pyGet, he, if_false]
        exact ih hn.2 h'

theorem pyRange_mem_bound (n : ℤ) (o : ℚ) (ho : o ∈ pyRange n) :
    0 ≤ o ∧ o ≤ (n : ℚ) - 1 := by
  unfold pyRange at ho
  obtain ⟨j, hj, rfl⟩ := List.mem_map.mp ho
  rw [List.mem_range] at hj
  have hjn : (j : ℤ) ≤ n - 1 := by omega
  constructor
  · positivity
  · calc (j : ℚ) = ((j : ℤ) : ℚ) := by push_cast; ring
    _ ≤ ((n - 1 : ℤ) : ℚ) := by exact_mod_cast hjn
    _ = (n : ℚ) - 1 := by push_cast; ring

theorem findBestStart_cases (rd : String → Option ResourceInput)
    (usage : Usage) (taskRes : List (String × ℚ)) (dur mn mx : ℚ) :
    findBestStart rd usage taskRes dur mn mx = mn ∨
    ∃ o ∈ pyRange (pyInt (qsub mx mn) + 1),
      findBestStart rd usage taskRes dur mn mx = qadd mn o := by
  unfold findBestStart
  have main : ∀ (l : List ℚ) (acc : ℚ × Option ℚ),
      (acc.1 = mn ∨ ∃ o ∈ pyRange (pyInt (qsub mx mn) + 1), acc.1 = qadd mn o) →
      (∀ c ∈ l, ∃ o ∈ pyRange (pyInt (qsub mx mn) + 1), c = qadd mn o) →
      ((l.foldl (fun (acc : ℚ × Option ℚ) cand =>
        match evalResources rd usage dur cand taskRes 0 with
        | (true, _) => acc
        | (false, peak) =>
          match acc.2 with
          | none => (cand, some peak)
          | some mp => if peak < mp then (cand, some peak) else acc) acc).1 = mn ∨
        ∃ o ∈ pyRange (pyInt (qsub mx mn) + 1),
          (l.foldl (fun (acc : ℚ × Option ℚ) cand =>
            match evalResources rd usage dur cand taskRes 0 with
            | (true, _) => acc
            | (false, peak) =>
              match acc.2 with
              | none => (cand, some peak)
              | some mp => if peak < mp then (cand, some peak) else acc) acc).1 =
            qadd mn o) := by
    intro l
    induction l with
    | nil => exact fun acc hacc _ => hacc
    | cons c cs ih =>
      intro acc hacc hl
      rw [List.foldl_cons]
      refine ih _ ?_ (fun x hx => hl x (List.mem_cons_of_mem _ hx))
      cases hev : evalResources rd usage dur c taskRes 0 with
      | mk conflict peak =>
        cases conflict with
        | true => exact hacc
        | false =>
          cases hacc2 : acc.2 with
          | none =>
            simp only []
            exact Or.inr (hl c (List.mem_cons_self _ _))
          | some mp =>
            simp only []
            by_cases hlt : peak < mp
            · rw [if_pos hlt]
              exact Or.inr (hl c (List.mem_cons_self _ _))
            · rw [if_neg hlt]
              exact hacc
  simp only []
  refine main _ (mn, none) (Or.inl rfl) ?_
  intro c hc
  obtain ⟨o, ho, rfl⟩ := List.mem_map.mp hc
  exact ⟨o, ho, rfl⟩

theorem scheduleFold_untouched (rd : String → Option ResourceInput)
    (criticals : List String) (es ls : List (String × ℚ)) (startDate : ℚ) :
    ∀ (l : List TaskInput) (st : List (String × ScheduleEntry) × Usage)
      (tid : String), tid ∉ l.map TaskInput.id →
      pyGet (l.foldl (scheduleStep rd criticals es ls startDate) st).1 tid =
        pyGet st.1 tid := by
  intro l
  induction l with
  | nil => exact fun st tid _ => rfl
  | cons u l ih =>
    intro st tid htid
    rw [List.map_cons] at htid
    rw [List.foldl_cons, ih _ tid (fun hc => htid (List.mem_cons_of_mem _ hc))]
    show pyGet (pySet st.1 u.id _) tid = pyGet st.1 tid
    exact pyGet_pySet_ne _ _ _ _ (fun hc => htid (hc ▸ List.mem_cons_self _ _))

theorem scheduleFold_entry (rd : String → Option ResourceInput)
    (criticals : List String) (es ls : List (String × ℚ)) (startDate : ℚ) :
    ∀ (l : List TaskInput) (st : List (String × ScheduleEntry) × Usage)
      (t : TaskInput), t ∈ l → (l.map TaskInput.id).Nodup →
      ∃ b, pyGet (l.foldl (scheduleStep rd criticals es ls startDate) st).1 t.id =
        some ⟨qadd startDate b, qadd startDate (qadd b t.duration), t.duration,
          decide (t.id ∈ criticals),
          qsub (pyGetD ls t.id 0) (pyGetD es t.id 0)⟩ ∧
        (b = pyGetD es t.id 0 ∨
          ∃ o ∈ pyRange (pyInt (qsub (pyGetD ls t.id 0) (pyGetD es t.id 0)) + 1),
            b = qadd (pyGetD es t.id 0) o) := by
  intro l
  induction l with
  | nil => intro st t ht; cases ht
  | cons u l ih =>
    intro st t ht hnd
    rw [List.map_cons, List.nodup_cons] at hnd
    rcases List.mem_cons.mp ht with rfl | ht'
    · refine ⟨findBestStart rd st.2 (taskResources rd t.required_resources)
        t.duration (pyGetD es t.id 0) (pyGetD ls t.id 0), ?_, ?_⟩
      · rw [List.foldl_cons,
          scheduleFold_untouched rd criticals es ls startDate l _ t.id hnd.1]
        show pyGet (pySet st.1 t.id _) t.id = _
        rw [pyGet_pySet_self]
      · exact findBestStart_cases rd st.2 _ t.duration _ _
    · rw [List.foldl_cons]
      exact ih _ t ht' hnd.2

theorem pyInt_le_self (q : ℚ) (h : 0 ≤ q) : (pyInt q : ℚ) ≤ q := by
  unfold pyInt
  rw [if_pos h]
  exact_mod_cast Int.floor_le q

/-- C3: on every acyclic task set with unique ids and positive
durations, leveling does not extend the project: every scheduled end
time is at most `startDate` plus the maximal earliest finish of the
forward pass (the critical-path-only duration), and the returned
`project_end_date` equals exactly that critical-path end date. -/
theorem c3_leveling_preserves_project_end (tasks : List TaskInput)
    (resources : List ResourceInput) (startDate : ℚ) (rank : String → ℕ)
    (hnd : (taskIds tasks).Nodup) (hwf : WfRank tasks rank)
    (hpos : ∀ t ∈ tasks, 0 < t.duration)
    (es ef : List (String × ℚ)) (hf : forwardPass tasks = some (es, ef))
    (r : LevelingResult)
    (hr : resource_leveling_algorithm tasks resources startDate = some r) :
    (∀ t ∈ tasks, (pyGetD r.schedule t.id junkEntry).end_time ≤
      startDate + pyMaxValues ef) ∧
    r.project_end_date = startDate + pyMaxValues ef := by
  unfold resource_leveling_algorithm at hr
  rw [hf] at hr
  simp only [] at hr
  cases hB : backwardPass tasks (pyMaxValues ef) with
  | none => rw [hB] at hr; cases hr
  | some q =>
    obtain ⟨ls, lf⟩ := q
    rw [hB] at hr
    simp only [] at hr
    -- soundness of the passes
    obtain ⟨hses, hsef, hpresent, hkeys⟩ := forwardPass_sound tasks rank hwf es ef hf
    set pe : ℚ := pyMaxValues ef with hpedef
    set N : ℕ := (tasks.map (fun t => rank t.id)).foldr max 0 + 1 with hNdef
    have hN : ∀ t ∈ tasks, rank t.id < N := by
      intro t ht
      have := le_foldr_max (tasks.map (fun t => rank t.id)) (rank t.id)
        (List.mem_map_of_mem _ ht)
      omega
    obtain ⟨hsls, hlspresent⟩ := backwardPass_sound tasks pe rank N hwf hN ls lf hB
    have hpe : ∀ tid ∈ taskIds tasks, cpmEF (taskDict tasks) rank tid ≤ pe := by
      intro tid htid
      obtain ⟨t, ht, rfl⟩ := List.mem_map.mp htid
      obtain ⟨v, hv⟩ := Option.isSome_iff_exists.mp (hpresent t ht).2
      have hval : v = cpmEF (taskDict tasks) rank t.id := hsef t.id v hv
      rw [← hval]
      exact le_pyMax_of_mem _ v
        (List.mem_map_of_mem (·.2) (pyGet_mem ef t.id v hv))
    have hesv : ∀ t ∈ tasks, pyGetD es t.id 0 = cpmES (taskDict tasks) rank t.id := by
      intro t ht
      obtain ⟨v, hv⟩ := Option.isSome_iff_exists.mp (hpresent t ht).1
      rw [pyGetD, hv, Option.getD_some]
      exact hses t.id v hv
    have hlsv : ∀ t ∈ tasks, pyGetD ls t.id 0 =
        cpmLS (taskDict tasks) tasks pe rank N t.id := by
      intro t ht
      obtain ⟨v, hv⟩ := Option.isSome_iff_exists.mp (hlspresent t ht)
      rw [pyGetD, hv, Option.getD_some]
      exact hsls t.id v hv
    have hcore : ∀ t ∈ tasks, cpmES (taskDict tasks) rank t.id ≤
        cpmLS (taskDict tasks) tasks pe rank N t.id := by
      intro t ht
      exact cpmES_le_cpmLS tasks pe rank N hnd hwf hN hpe N t.id
        (List.mem_map_of_mem TaskInput.id ht) (by omega)
    -- one bound for every scheduled entry
    have hsorted_nodup : ((sortedTasks (criticalTasks tasks es ls) es tasks).map
        TaskInput.id).Nodup := by
      refine (List.Perm.nodup_iff ?_).mpr hnd
      exact (List.perm_insertionSort _ tasks).map TaskInput.id
    have hentry : ∀ t ∈ tasks, ∃ b,
        pyGet (levelingSchedule tasks resources startDate es ls).1 t.id =
          some ⟨qadd startDate b, qadd startDate (qadd b t.duration), t.duration,
            decide (t.id ∈ criticalTasks tasks es ls),
            qsub (pyGetD ls t.id 0) (pyGetD es t.id 0)⟩ ∧
          (b = pyGetD es t.id 0 ∨
            ∃ o ∈ pyRange (pyInt (qsub (pyGetD ls t.id 0) (pyGetD es t.id 0)) + 1),
              b = qadd (pyGetD es t.id 0) o) := by
      intro t ht
      refine scheduleFold_entry (resourceDict resources)
        (criticalTasks tasks es ls) es ls startDate
        (sortedTasks (criticalTasks tasks es ls) es tasks) ([], []) t
        ?_ hsorted_nodup
      exact (List.perm_insertionSort _ tasks).mem_iff.mpr ht
    have hendle : ∀ t ∈ tasks, ∀ b,
        (b = pyGetD es t.id 0 ∨
          ∃ o ∈ pyRange (pyInt (qsub (pyGetD ls t.id 0) (pyGetD es t.id 0)) + 1),
            b = qadd (pyGetD es t.id 0) o) →
        qadd startDate (qadd b t.duration) ≤ startDate + pe := by
      intro t ht b hb
      have htd : taskDict tasks t.id = some t := taskDict_self tasks hnd t ht
      have hefeq : cpmEF (taskDict tasks) rank t.id =
          qadd (cpmES (taskDict tasks) rank t.id) t.duration :=
        cpmEF_unfold (taskDict tasks) rank (wfRank_td tasks rank hwf) t.id t htd
      have hefle : cpmEF (taskDict tasks) rank t.id ≤ pe :=
        hpe t.id (List.mem_map_of_mem TaskInput.id ht)
      have hlsunf := cpmLS_unfold tasks pe rank N hwf hN t.id t
        (List.mem_map_of_mem TaskInput.id ht) htd
      have hlfle : depsMinLS t.id (cpmLS (taskDict tasks) tasks pe rank N)
          tasks pe ≤ pe := depsMinLS_le_acc _ _ tasks pe
      rcases hb with rfl | ⟨o, ho, rfl⟩
      · rw [qadd_eq, qadd_eq]
        rw [hesv t ht]
        rw [qadd_eq] at hefeq
        linarith
      · have hbound := pyRange_mem_bound _ _ ho
        have hnn : (0 : ℚ) ≤ qsub (pyGetD ls t.id 0) (pyGetD es t.id 0) := by
          rw [qsub_eq, hesv t ht, hlsv t ht]
          have := hcore t ht
          linarith
        have hole : o ≤ qsub (pyGetD ls t.id 0) (pyGetD es t.id 0) := by
          have h1 := hbound.2
          have h2 := pyInt_le_self _ hnn
          push_cast at h1
          linarith
        rw [qadd_eq, qadd_eq, qadd_eq]
        rw [hesv t ht] at hole ⊢
        rw [hlsv t ht] at hole
        rw [qadd_eq] at hefeq
        rw [qsub_eq] at hole hlsunf
        have hd := hpos t ht
        have : cpmLS (taskDict tasks) tasks pe rank N t.id + t.duration ≤ pe := by
          linarith
        linarith
    -- destructure levelingFinish
    unfold levelingFinish at hr
    cases hE : (tasks.filter (fun t =>
        pyMem (levelingSchedule tasks resources startDate es ls).1 t.id)).map
        (fun t => (pyGetD (levelingSchedule tasks resources startDate es ls).1
          t.id junkEntry).end_time) with
    | nil => rw [hE] at hr; cases hr
    | cons e rest =>
      rw [hE] at hr
      rcases Option.some.inj hr with rfl
      simp only []
      have hmax_eq : rest.foldl qmax e = pyMax (e :: rest) := rfl
      -- upper bound: every end time is ≤ startDate + pe
      have hub : ∀ x ∈ (e :: rest), x ≤ startDate + pe := by
        rw [← hE]
        intro x hx
        obtain ⟨t, htf, rfl⟩ := List.mem_map.mp hx
        obtain ⟨ht, -⟩ := List.mem_filter.mp htf
        obtain ⟨b, hbeq, hbcond⟩ := hentry t ht
        rw [pyGetD, hbeq, Option.getD_some]
        exact hendle t ht b hbcond
      have hendles : ∀ t ∈ tasks, (pyGetD
          (levelingSchedule tasks resources startDate es ls).1 t.id
          junkEntry).end_time ≤ startDate + pe := by
        intro t ht
        obtain ⟨b, hbeq, hbcond⟩ := hentry t ht
        rw [pyGetD, hbeq, Option.getD_some]
        exact hendle t ht b hbcond
      refine ⟨hendles, ?_⟩
      -- lower bound: a maximal-earliest-finish task is scheduled at its
      -- earliest start and ends exactly at startDate + pe
      have hef_ne : ef.map (·.2) ≠ [] := by
        have htasks_ne : tasks ≠ [] := by
          intro hcon
          rw [hcon] at hE
          simp at hE
        obtain ⟨t₀, ts₀, rfl⟩ := List.exists_cons_of_ne_nil htasks_ne
        obtain ⟨v, hv⟩ := Option.isSome_iff_exists.mp
          (hpresent t₀ (List.mem_cons_self _ _)).2
        intro hcon
        have := List.mem_map_of_mem (·.2) (pyGet_mem ef t₀.id v hv)
        rw [hcon] at this
        cases this
      have hpemem : pe ∈ ef.map (·.2) := pyMax_mem _ hef_ne
      obtain ⟨⟨tid, v⟩, hpair, hv2⟩ := List.mem_map.mp hpemem
      simp only [] at hv2
      have hefnodup : (ef.map (·.1)).Nodup :=
        runForward_nodup (taskDict tasks) (tasks.length + 1) tasks ([], [])
          (es, ef) hf List.nodup_nil
      have hget : pyGet ef tid = some v := mem_pyGet_of_nodup ef hefnodup tid v hpair
      have htidmem : tid ∈ taskIds tasks := hkeys tid (by rw [hget]; rfl)
      obtain ⟨T, hT, rfl⟩ := List.mem_map.mp htidmem
      have hpeT : pe = cpmEF (taskDict tasks) rank T.id := by
        rw [← hv2]
        exact hsef T.id v hget
      -- T has no dependents (its earliest finish is already maximal,
      -- so a dependent would need a strictly larger one)
      have hnodep : ∀ ot ∈ tasks, T.id ∉ ot.dependencies := by
        intro ot hot hdep
        have hotd : taskDict tasks ot.id = some ot := taskDict_self tasks hnd ot hot
        have h1 : cpmEF (taskDict tasks) rank T.id ≤
            cpmES (taskDict tasks) rank ot.id := by
          unfold cpmES
          rw [hotd]
          exact depsMaxEF_ge_elem (taskDict tasks) _ ot.dependencies 0 T.id hdep
            ((taskDict_isSome_iff tasks T.id).mpr
              (List.mem_map_of_mem TaskInput.id hT))
        have h2 : cpmEF (taskDict tasks) rank ot.id =
            qadd (cpmES (taskDict tasks) rank ot.id) ot.duration :=
          cpmEF_unfold (taskDict tasks) rank (wfRank_td tasks rank hwf) ot.id ot hotd
        have h3 : cpmEF (taskDict tasks) rank ot.id ≤ pe :=
          hpe ot.id (List.mem_map_of_mem TaskInput.id hot)
        have h4 := hpos ot hot
        rw [qadd_eq] at h2
        linarith
      have hTd : taskDict tasks T.id = some T := taskDict_self tasks hnd T hT
      have hlsT : cpmLS (taskDict tasks) tasks pe rank N T.id =
          qsub pe T.duration := by
        rw [cpmLS_unfold tasks pe rank N hwf hN T.id T
          (List.mem_map_of_mem TaskInput.id hT) hTd,
          depsMinLS_const T.id _ tasks pe hnodep]
      have hesT : cpmES (taskDict tasks) rank T.id = pe - T.duration := by
        have h2 := cpmEF_unfold (taskDict tasks) rank (wfRank_td tasks rank hwf)
          T.id T hTd
        rw [qadd_eq] at h2
        rw [← hpeT] at h2
        linarith
      -- T's entry: its candidate window is a single offset, so it is
      -- scheduled at its earliest start and ends at startDate + pe
      obtain ⟨b, hbeq, hbcond⟩ := hentry T hT
      have hesvT : pyGetD es T.id 0 = pe - T.duration := by
        rw [hesv T hT, hesT]
      have hlsvT : pyGetD ls T.id 0 = pe - T.duration := by
        rw [hlsv T hT, hlsT, qsub_eq]
      have hbeqv : b = pe - T.duration := by
        rcases hbcond with rfl | ⟨o, ho, rfl⟩
        · exact hesvT
        · have h0 : qsub (pyGetD ls T.id 0) (pyGetD es T.id 0) = 0 := by
            rw [qsub_eq, hesvT, hlsvT]
            ring
          rw [h0] at ho
          have hint : pyInt (0 : ℚ) = 0 := by
            unfold pyInt
            rw [if_pos le_rfl]
            exact Int.floor_zero
          rw [hint] at ho
          have hrange : pyRange (0 + 1) = [(0 : ℚ)] := by
            unfold pyRange
            simp [List.range_succ]
          rw [hrange, List.mem_singleton] at ho
          rw [ho, qadd_eq, hesvT]
          ring
      have hendT : qadd startDate (qadd b T.duration) = startDate + pe := by
        rw [qadd_eq, qadd_eq, hbeqv]
        ring
      have hTmem : startDate + pe ∈ (e :: rest) := by
        rw [← hE]
        refine List.mem_map.mpr ⟨T, List.mem_filter.mpr ⟨hT, ?_⟩, ?_⟩
        · show pyMem (levelingSchedule tasks resources startDate es ls).1 T.id = true
          rw [pyMem, hbeq]
          rfl
        · rw [pyGetD, hbeq, Option.getD_some]
          exact hendT
      have hge : startDate + pe ≤ pyMax (e :: rest) :=
        le_pyMax_of_mem _ _ hTmem
      have hle : pyMax (e :: rest) ≤ startDate + pe :=
        pyMax_le_bound _ _ (List.cons_ne_nil e rest) hub
      show rest.foldl qmax e = startDate + pe
      exact le_antisymm hle hge

/-- Witness for `c3_leveling_preserves_project_end`: on the one-task
example (`baseTask`, 2 h, resource `R`), the forward pass yields
earliest finish 2, the scheduled end time is 2 ≤ 0 + 2 and the returned
`project_end_date` is exactly 0 + 2. -/
theorem c3_leveling_preserves_project_end_witness :
    (∀ t ∈ [baseTask],
      (pyGetD (LevelingResult.mk
        [("T", ⟨0, 2, 2, true, 0⟩)] [⟨baseTask, 0, 2, true, 0⟩] ["T"]
        [("R", [(0, 1), (1, 1)])] 2 0 2).schedule t.id junkEntry).end_time ≤
        0 + pyMaxValues [("T", (2 : ℚ))]) ∧
    (LevelingResult.mk
        [("T", ⟨0, 2, 2, true, 0⟩)] [⟨baseTask, 0, 2, true, 0⟩] ["T"]
        [("R", [(0, 1), (1, 1)])] 2 0 2).project_end_date =
      0 + pyMaxValues [("T", (2 : ℚ))] :=
  c3_leveling_preserves_project_end [baseTask] [baseRes] 0 exRank
    (by decide)
    (by
      intro t ht d hd hm
      rw [List.mem_singleton] at ht
      subst ht
      simp [baseTask] at hd)
    (by
      intro t ht
      rw [List.mem_singleton] at ht
      subst ht
      norm_num [baseTask])
    [("T", 0)] [("T", 2)] (by decide)
    (LevelingResult.mk
        [("T", ⟨0, 2, 2, true, 0⟩)] [⟨baseTask, 0, 2, true, 0⟩] ["T"]
        [("R", [(0, 1), (1, 1)])] 2 0 2)
    (by decide)
